import Mathlib

/-!
# 24LC16B EEPROM driver (eeprom_V1.c / eeprom_V1.h)

Shallow embedding of the driver.  Machine integers are natural numbers with an
explicit reduction modulo `2^8` or `2^16` at every place where the C code stores a
value into a `uint8_t` or `uint16_t` object.  Arithmetic between such values is done
by C in `int` (32 bits on the target), so sums of two 16-bit values do not wrap and
differences are computed over the integers before they are stored.

The I2C peripheral library (`HAL_I2C_Mem_Read`, `HAL_I2C_Mem_Write`, `HAL_Delay`) is
external to the driver: it is a parameter of the embedding (`Transport`), and every
call the driver makes to it is appended to a log kept in the driver state.
-/

namespace EEPROM

/-! ## Constants and types of eeprom_V1.h -/

def EEPROM_I2C_ADDR : Nat := 0xA0
def EEPROM_PAGE_SIZE : Nat := 16
def EEPROM_TOTAL_SIZE : Nat := 2048
def EEPROM_WRITE_DELAY : Nat := 5

inductive EEPROM_Status
  | EEPROM_OK
  | EEPROM_ERROR
  | EEPROM_BUSY
  | EEPROM_TIMEOUT
  deriving DecidableEq, Repr

open EEPROM_Status

/-! ## Machine integers -/

/-- Store into a `uint8_t`. -/
def u8 (x : Nat) : Nat := x % 256

/-- Store into a `uint16_t`. -/
def u16 (x : Nat) : Nat := x % 65536

/-- Store an `int` result (possibly negative) into a `uint16_t`. -/
def wrap16 (x : Int) : Nat := (x % 65536).toNat

/-! ## The external bus transport and the driver state -/

/-- One call of the driver into the peripheral library.  `memRead` and `memWrite` carry
the handle, device address and memory address passed to the call and the transfer
size; `off` is the position inside the caller's buffer of the pointer handed to
`HAL_I2C_Mem_Read`, `data` are the bytes `pData[0 .. Size-1]` handed to
`HAL_I2C_Mem_Write`; `ok` records whether the call returned `HAL_OK`.  The constant
arguments `I2C_MEMADD_SIZE_8BIT` and the timeout `100` are not recorded. -/
inductive Event
  | memRead (hi2c : Option Nat) (dev mem off size : Nat) (ok : Bool)
  | memWrite (hi2c : Option Nat) (dev mem size : Nat) (data : List Nat) (ok : Bool)
  | delay (ms : Nat)
  deriving DecidableEq, Repr

/-- The external bus transport, over its own state `σ`: a read returns a success flag,
the bytes it delivered and the new transport state; a write returns a success flag and
the new transport state. -/
structure Transport (σ : Type) where
  memRead : σ → Option Nat → Nat → Nat → Nat → Bool × List Nat × σ
  memWrite : σ → Option Nat → Nat → Nat → Nat → List Nat → Bool × σ

/-- State seen by the driver: the static handle `hi2c_eeprom`, the state of the external
transport, the log of calls into the peripheral library, and the log of the
`(address, size)` arguments of every call of `EEPROM_WritePage`. -/
structure Driver (σ : Type) where
  hi2c_eeprom : Option Nat
  bus : σ
  trace : List Event
  pageCalls : List (Nat × Nat)

/-- Copy `bytes` into `buf` starting at position `off` (what a transfer into
`&data[off]` does to the caller's buffer). -/
def blit (buf : List Nat) (off : Nat) (bytes : List Nat) : List Nat :=
  buf.take off ++ bytes ++ buf.drop (off + bytes.length)

variable {σ : Type}

/-- `HAL_I2C_Mem_Read(hi2c, dev, mem, I2C_MEMADD_SIZE_8BIT, &data[off], size, 100)`:
returns whether the result was `HAL_OK`, the caller's buffer after the call and the
new state. -/
def HAL_I2C_Mem_Read (T : Transport σ) (s : Driver σ) (hi2c : Option Nat)
    (dev mem : Nat) (data : List Nat) (off size : Nat) : Bool × List Nat × Driver σ :=
  let r := T.memRead s.bus hi2c dev mem size
  (r.1, blit data off (r.2.1.take size),
    { s with bus := r.2.2, trace := s.trace ++ [Event.memRead hi2c dev mem off size r.1] })

/-- `HAL_I2C_Mem_Write(hi2c, dev, mem, I2C_MEMADD_SIZE_8BIT, data, size, 100)`. -/
def HAL_I2C_Mem_Write (T : Transport σ) (s : Driver σ) (hi2c : Option Nat)
    (dev mem : Nat) (data : List Nat) (size : Nat) : Bool × Driver σ :=
  let r := T.memWrite s.bus hi2c dev mem size (data.take size)
  (r.1, { s with bus := r.2,
                 trace := s.trace ++ [Event.memWrite hi2c dev mem size (data.take size) r.1] })

/-- `HAL_Delay(ms)`. -/
def HAL_Delay (s : Driver σ) (ms : Nat) : Driver σ :=
  { s with trace := s.trace ++ [Event.delay ms] }

/-! ## eeprom_V1.c -/

/-- `EEPROM_Init`: the argument is `none` for a null pointer. -/
def EEPROM_Init (T : Transport σ) (s : Driver σ) (hi2c : Option Nat) :
    EEPROM_Status × Driver σ :=
  if hi2c = none then
    (EEPROM_ERROR, s)
  else
    let s1 : Driver σ := { s with hi2c_eeprom := hi2c }
    let r := HAL_I2C_Mem_Read T s1 s1.hi2c_eeprom EEPROM_I2C_ADDR 0x0000 [0] 0 1
    if r.1 ≠ true then
      (EEPROM_ERROR, r.2.2)
    else
      (EEPROM_OK, r.2.2)

def EEPROM_GetBlockFromAddress (address : Nat) : Nat :=
  u8 ((address >>> 8) &&& 0x07)

def EEPROM_GetI2CAddress (address : Nat) : Nat :=
  let block := EEPROM_GetBlockFromAddress address
  u8 (EEPROM_I2C_ADDR ||| (block <<< 1))

def EEPROM_GetAddressInBlock (address : Nat) : Nat :=
  u16 (address &&& 0xFF)

def EEPROM_WriteByte (T : Transport σ) (s : Driver σ) (address data : Nat) :
    EEPROM_Status × Driver σ :=
  if s.hi2c_eeprom = none ∨ address ≥ EEPROM_TOTAL_SIZE then
    (EEPROM_ERROR, s)
  else
    let i2c_addr := EEPROM_GetI2CAddress address
    let mem_addr := u8 (EEPROM_GetAddressInBlock address)
    let r := HAL_I2C_Mem_Write T s s.hi2c_eeprom i2c_addr mem_addr [data] 1
    if r.1 ≠ true then
      (EEPROM_ERROR, r.2)
    else
      (EEPROM_OK, HAL_Delay r.2 EEPROM_WRITE_DELAY)

/-- `EEPROM_ReadByte`: `data` is `none` for a null pointer, otherwise the current value
of the byte pointed to; the second component of the result is that byte afterwards. -/
def EEPROM_ReadByte (T : Transport σ) (s : Driver σ) (address : Nat) (data : Option Nat) :
    EEPROM_Status × Option Nat × Driver σ :=
  match data with
  | none => (EEPROM_ERROR, none, s)
  | some d =>
    if s.hi2c_eeprom = none ∨ address ≥ EEPROM_TOTAL_SIZE then
      (EEPROM_ERROR, some d, s)
    else
      let i2c_addr := EEPROM_GetI2CAddress address
      let mem_addr := u8 (EEPROM_GetAddressInBlock address)
      let r := HAL_I2C_Mem_Read T s s.hi2c_eeprom i2c_addr mem_addr [d] 0 1
      if r.1 ≠ true then
        (EEPROM_ERROR, r.2.1.head?, r.2.2)
      else
        (EEPROM_OK, r.2.1.head?, r.2.2)

/-- `EEPROM_WritePage`: `data` is `none` for a null pointer, otherwise the bytes found
from the pointer on. -/
def EEPROM_WritePage (T : Transport σ) (s : Driver σ) (address : Nat)
    (data : Option (List Nat)) (size : Nat) : EEPROM_Status × Driver σ :=
  let s : Driver σ := { s with pageCalls := s.pageCalls ++ [(address, size)] }
  match data with
  | none => (EEPROM_ERROR, s)
  | some buf =>
    if s.hi2c_eeprom = none ∨ size = 0 ∨ size > EEPROM_PAGE_SIZE then
      (EEPROM_ERROR, s)
    else if address ≥ EEPROM_TOTAL_SIZE ∨
        (address % EEPROM_PAGE_SIZE) + size > EEPROM_PAGE_SIZE then
      (EEPROM_ERROR, s)
    else
      let i2c_addr := EEPROM_GetI2CAddress address
      let mem_addr := u8 (EEPROM_GetAddressInBlock address)
      let r := HAL_I2C_Mem_Write T s s.hi2c_eeprom i2c_addr mem_addr buf size
      if r.1 ≠ true then
        (EEPROM_ERROR, r.2)
      else
        (EEPROM_OK, HAL_Delay r.2 EEPROM_WRITE_DELAY)

/-- The `while (bytes_read < size)` loop of `EEPROM_ReadBuffer`; the first argument
bounds the number of iterations, `none` means the bound was reached. -/
def EEPROM_ReadBuffer_loop (T : Transport σ) (address size : Nat) :
    Nat → Nat → List Nat → Driver σ → Option (EEPROM_Status × List Nat × Driver σ)
  | 0, bytes_read, data, s =>
    if bytes_read < size then none else some (EEPROM_OK, data, s)
  | fuel + 1, bytes_read, data, s =>
    if bytes_read < size then
      let current_addr := u16 (address + bytes_read)
      let i2c_addr := EEPROM_GetI2CAddress current_addr
      let mem_addr := u8 (EEPROM_GetAddressInBlock current_addr)
      let block_start := u16 (current_addr &&& 0xFF00)
      let block_end := u16 (block_start + 0xFF)
      let remaining_in_block := wrap16 ((block_end : Int) - (current_addr : Int) + 1)
      let remaining_to_read := wrap16 ((size : Int) - (bytes_read : Int))
      let read_size := if remaining_in_block < remaining_to_read then
                         remaining_in_block else remaining_to_read
      let read_size := if read_size > 256 then 256 else read_size
      let r := HAL_I2C_Mem_Read T s s.hi2c_eeprom i2c_addr mem_addr data bytes_read read_size
      if r.1 ≠ true then
        some (EEPROM_ERROR, r.2.1, r.2.2)
      else
        EEPROM_ReadBuffer_loop T address size fuel (u16 (bytes_read + read_size)) r.2.1 r.2.2
    else
      some (EEPROM_OK, data, s)

/-- `EEPROM_ReadBuffer`: `data` is `none` for a null pointer, otherwise the caller's
buffer; the result carries the buffer afterwards. -/
def EEPROM_ReadBuffer (T : Transport σ) (fuel : Nat) (s : Driver σ) (address : Nat)
    (data : Option (List Nat)) (size : Nat) :
    Option (EEPROM_Status × Option (List Nat) × Driver σ) :=
  match data with
  | none => some (EEPROM_ERROR, none, s)
  | some buf =>
    if s.hi2c_eeprom = none ∨ size = 0 then
      some (EEPROM_ERROR, some buf, s)
    else if address + size > EEPROM_TOTAL_SIZE then
      some (EEPROM_ERROR, some buf, s)
    else
      (EEPROM_ReadBuffer_loop T address size fuel 0 buf s).map
        (fun r => (r.1, some r.2.1, r.2.2))

/-- The `while (bytes_written < size)` loop of `EEPROM_WriteBuffer`; the first argument
bounds the number of iterations, `none` means the bound was reached. -/
def EEPROM_WriteBuffer_loop (T : Transport σ) (address size : Nat) (data : List Nat) :
    Nat → Nat → Driver σ → Option (EEPROM_Status × Driver σ)
  | 0, bytes_written, s =>
    if bytes_written < size then none else some (EEPROM_OK, s)
  | fuel + 1, bytes_written, s =>
    if bytes_written < size then
      let current_addr := u16 (address + bytes_written)
      let page_offset := u16 (current_addr % EEPROM_PAGE_SIZE)
      let remaining_in_page := wrap16 ((EEPROM_PAGE_SIZE : Int) - (page_offset : Int))
      let remaining_to_write := wrap16 ((size : Int) - (bytes_written : Int))
      let write_size := if remaining_in_page < remaining_to_write then
                          remaining_in_page else remaining_to_write
      let r := EEPROM_WritePage T s current_addr (some (data.drop bytes_written)) write_size
      if r.1 ≠ EEPROM_OK then
        some (EEPROM_ERROR, r.2)
      else
        EEPROM_WriteBuffer_loop T address size data fuel (u16 (bytes_written + write_size)) r.2
    else
      some (EEPROM_OK, s)

/-- `EEPROM_WriteBuffer`: `data` is `none` for a null pointer. -/
def EEPROM_WriteBuffer (T : Transport σ) (fuel : Nat) (s : Driver σ) (address : Nat)
    (data : Option (List Nat)) (size : Nat) : Option (EEPROM_Status × Driver σ) :=
  match data with
  | none => some (EEPROM_ERROR, s)
  | some buf =>
    if s.hi2c_eeprom = none ∨ size = 0 then
      some (EEPROM_ERROR, s)
    else if address + size > EEPROM_TOTAL_SIZE then
      some (EEPROM_ERROR, s)
    else
      EEPROM_WriteBuffer_loop T address size buf fuel 0 s

/-- `EEPROM_Clear`: `alloc` tells whether `malloc(size)` returns a buffer. -/
def EEPROM_Clear (T : Transport σ) (fuel : Nat) (alloc : Bool) (s : Driver σ)
    (start_address end_address value : Nat) : Option (EEPROM_Status × Driver σ) :=
  if start_address > end_address ∨ end_address ≥ EEPROM_TOTAL_SIZE then
    some (EEPROM_ERROR, s)
  else
    let size := wrap16 ((end_address : Int) - (start_address : Int) + 1)
    if alloc = false then
      some (EEPROM_ERROR, s)
    else
      let buffer := List.replicate size value
      EEPROM_WriteBuffer T fuel s start_address (some buffer) size

/-! ## A byte-store transport

The device side of the bus as the specification describes it: a store of bytes indexed
by (device address, memory address), the memory address being 8 bits wide, together
with a schedule that says which transfers fail. -/

/-- Modelled from the spec: the bus transport collaborator (the peripheral library and
the device behind it are not part of the driver sources).  `mem dev a` is the byte at
memory address `a` of device address `dev`; `calls` counts the transfers made so far;
`fault k` is `none` when transfer number `k` succeeds and `some j` when it fails after
`j` bytes were moved. -/
structure ByteStore where
  mem : Nat → Nat → Nat
  calls : Nat
  fault : Nat → Option Nat

/-- Store `bytes` at consecutive 8-bit memory addresses of device `dev` from `a` on. -/
def storeBytes (m : Nat → Nat → Nat) (dev : Nat) : Nat → List Nat → Nat → Nat → Nat
  | _, [] => m
  | a, b :: bs =>
    storeBytes (fun d x => if d = dev ∧ x = a % 256 then b else m d x) dev (a + 1) bs

/-- The `n` bytes at consecutive 8-bit memory addresses of device `dev` from `a` on. -/
def loadBytes (m : Nat → Nat → Nat) (dev a n : Nat) : List Nat :=
  (List.range n).map (fun i => m dev ((a + i) % 256))

/-- Modelled from the spec: `MemRead` and `MemWrite` of the bus transport collaborator
over a `ByteStore`.  A successful write stores all bytes and a successful read
delivers all bytes; a failing transfer moves only the first `j` bytes and reports
failure.  The handle is not inspected. -/
def byteStore : Transport ByteStore where
  memRead st _ dev a size :=
    match st.fault st.calls with
    | none => (true, loadBytes st.mem dev a size, { st with calls := st.calls + 1 })
    | some j => (false, loadBytes st.mem dev a (min j size), { st with calls := st.calls + 1 })
  memWrite st _ dev a _ bytes :=
    match st.fault st.calls with
    | none => (true, { st with mem := storeBytes st.mem dev a bytes, calls := st.calls + 1 })
    | some j => (false, { st with mem := storeBytes st.mem dev a (bytes.take j),
                                   calls := st.calls + 1 })

/-- The transport never fails from the states that satisfy `Inv`: there every read and
every write succeeds and leads to a state that satisfies `Inv` again. -/
def NeverFails (T : Transport σ) (Inv : σ → Prop) : Prop :=
  ∀ st hi dev mem size, Inv st →
    ((T.memRead st hi dev mem size).1 = true ∧ Inv (T.memRead st hi dev mem size).2.2) ∧
    ∀ bytes, (T.memWrite st hi dev mem size bytes).1 = true ∧
      Inv (T.memWrite st hi dev mem size bytes).2

/-- The byte of the device at linear address `a`, through the address translation. -/
def linear (st : ByteStore) (a : Nat) : Nat :=
  st.mem (EEPROM_GetI2CAddress a) (EEPROM_GetAddressInBlock a)

/-- A transport state in which no transfer ever fails. -/
def NoFault (st : ByteStore) : Prop := ∀ k, st.fault k = none

/-- An all-`0xFF` device on which no transfer fails. -/
def blankStore : ByteStore := { mem := fun _ _ => 0xFF, calls := 0, fault := fun _ => none }

/-- An all-`0xFF` device on which transfer number `k` (counted from 0) fails after moving
`j` bytes and every other transfer succeeds. -/
def faultyStore (k j : Nat) : ByteStore :=
  { mem := fun _ _ => 0xFF, calls := 0, fault := fun i => if i = k then some j else none }

/-- A driver state with handle `hi2c` over transport state `b` and empty logs. -/
def freshDriver (hi2c : Option Nat) (b : σ) : Driver σ :=
  { hi2c_eeprom := hi2c, bus := b, trace := [], pageCalls := [] }

/-! ## Reference definitions taken from the specification -/

/-- Split `rem` bytes starting at cursor `c` at the multiples of `g`: a piece has length
`min (g - c % g) rem` (the bytes left to the next boundary or the bytes left in the
request, whichever is smaller), and the cursor then moves past it.  Each entry is
(start address, length); the first argument bounds the number of pieces. -/
def segments (g : Nat) : Nat → Nat → Nat → List (Nat × Nat)
  | 0, _, _ => []
  | fuel + 1, c, rem =>
    if rem = 0 then [] else
      (c, min (g - c % g) rem) :: segments g fuel (c + min (g - c % g) rem)
        (rem - min (g - c % g) rem)

/-- The read plan as the specification words it: `n` bytes from `a`, split at the
256-byte block boundaries. -/
def readSegments (a n : Nat) : List (Nat × Nat) := segments 256 n a n

/-- The write plan as the specification words it: `n` bytes from `a`, split at the
16-byte page boundaries. -/
def writeChunks (a n : Nat) : List (Nat × Nat) := segments 16 n a n

/-- Device address, memory address and size of a write transfer; `none` for any other
event. -/
def Event.writeArgs : Event → Option (Nat × Nat × Nat)
  | Event.memWrite _ dev mem size _ _ => some (dev, mem, size)
  | _ => none

/-- The events of a page write of chunk `c` of the request `(a, data)` that the transport
accepts: the transfer and the write delay. -/
def okWrite (hi2c : Option Nat) (data : List Nat) (a : Nat) (c : Nat × Nat) : List Event :=
  [Event.memWrite hi2c (EEPROM_GetI2CAddress c.1) (EEPROM_GetAddressInBlock c.1) c.2
      ((data.drop (c.1 - a)).take c.2) true,
   Event.delay EEPROM_WRITE_DELAY]

/-- The event of a page write of chunk `c` of the request `(a, data)` that the transport
fails. -/
def badWrite (hi2c : Option Nat) (data : List Nat) (a : Nat) (c : Nat × Nat) : List Event :=
  [Event.memWrite hi2c (EEPROM_GetI2CAddress c.1) (EEPROM_GetAddressInBlock c.1) c.2
      ((data.drop (c.1 - a)).take c.2) false]

/-- The read transfer of segment `c` of a request starting at `a`, with outcome `ok`. -/
def readEvent (hi2c : Option Nat) (a : Nat) (ok : Bool) (c : Nat × Nat) : Event :=
  Event.memRead hi2c (EEPROM_GetI2CAddress c.1) (EEPROM_GetAddressInBlock c.1) (c.1 - a) c.2 ok

/-- Total length of a list of (start, length) pieces. -/
def totalLen (l : List (Nat × Nat)) : Nat := (l.map Prod.snd).sum

/-- The region fill as the specification words it: the range must satisfy
`start ≤ end` and `end < TOTAL_SIZE`, a transient buffer of `end - start + 1` copies of
`value` must be available, and the fill is then the buffered write of that buffer at
`start`; in every other case the result is an error and nothing else happens. -/
def Clear_reference (T : Transport σ) (fuel : Nat) (alloc : Bool) (s : Driver σ)
    (start_address end_address value : Nat) : Option (EEPROM_Status × Driver σ) :=
  if start_address ≤ end_address ∧ end_address < EEPROM_TOTAL_SIZE ∧ alloc = true then
    EEPROM_WriteBuffer T fuel s start_address
      (some (List.replicate (end_address - start_address + 1) value))
      (end_address - start_address + 1)
  else
    some (EEPROM_ERROR, s)

/-- Whether the event is a write transfer that the transport accepted. -/
def Event.isOkWrite : Event → Bool
  | Event.memWrite _ _ _ _ _ true => true
  | _ => false

/-- Whether the event is a transfer (read or write) made on handle `hi2c`. -/
def Event.onHandle (hi2c : Option Nat) : Event → Bool
  | Event.memRead h _ _ _ _ _ => h = hi2c
  | Event.memWrite h _ _ _ _ _ => h = hi2c
  | Event.delay _ => false

/-- The check of one event against what follows it: an accepted write transfer must be
followed at once by a delay of `EEPROM_WRITE_DELAY`; `next` is `none` at the end of the
log. -/
def followedByDelay (e : Event) (next : Option Event) : Bool :=
  if e.isOkWrite then
    match next with
    | some (Event.delay ms) => ms = EEPROM_WRITE_DELAY
    | _ => false
  else true

/-- Every accepted write transfer of the log is immediately followed by the write
delay. -/
def settled : List Event → Bool
  | [] => true
  | e :: rest => followedByDelay e rest.head? && settled rest

/-- The sum of the delays of the log. -/
def delayTotal : List Event → Nat
  | [] => 0
  | Event.delay ms :: rest => ms + delayTotal rest
  | _ :: rest => delayTotal rest

/-- The number of accepted write transfers of the log. -/
def okWriteCount : List Event → Nat
  | [] => 0
  | e :: rest => (if e.isOkWrite then 1 else 0) + okWriteCount rest

/-- The events a call added to the log respect the settling delay: the log `after` is
the log `before` followed by events among which every accepted write transfer is
immediately followed by the write delay, and whose delays add up to
`EEPROM_WRITE_DELAY` for each accepted write transfer. -/
def Settles (before after : List Event) : Prop :=
  ∃ evs, after = before ++ evs ∧ settled evs = true ∧
    delayTotal evs = EEPROM_WRITE_DELAY * okWriteCount evs

/-- The first event a call added to the log is a transfer made on handle `hi2c`. -/
def StartsOnHandle (hi2c : Option Nat) (before after : List Event) : Prop :=
  ∃ e rest, after = before ++ e :: rest ∧ e.onHandle hi2c = true

/-! # Theorems -/

/-! ## Address translation -/

theorem and_ff00_eq (x : Nat) : x &&& 0xFF00 = (x / 256 % 256) * 256 := by
  apply Nat.eq_of_testBit_eq
  intro i
  have h1 : (0xFF00 : Nat) = 2 ^ 8 * (2 ^ 8 - 1) := by norm_num
  have h2 : (x / 256 % 256) * 256 = 2 ^ 8 * (x >>> 8 % 2 ^ 8) := by
    rw [Nat.shiftRight_eq_div_pow]; norm_num; omega
  rw [Nat.testBit_and, h1, h2, Nat.testBit_mul_pow_two, Nat.testBit_mul_pow_two,
    Nat.testBit_mod_two_pow, Nat.testBit_shiftRight, Nat.testBit_two_pow_sub_one]
  by_cases h : 8 ≤ i
  · simp [h]
    by_cases h' : i - 8 < 8
    · simp [h']
    · simp [h']
  · simp [h]

theorem block_eq (a : Nat) : EEPROM_GetBlockFromAddress a = a / 256 % 8 := by
  unfold EEPROM_GetBlockFromAddress u8
  rw [Nat.shiftRight_eq_div_pow, show (0x07 : Nat) = 2 ^ 3 - 1 by norm_num,
    Nat.and_pow_two_sub_one_eq_mod]
  omega

theorem or_base_shift (b : Nat) (h : b < 8) : 0xA0 ||| (b <<< 1) = 0xA0 + 2 * b := by
  interval_cases b <;> rfl

theorem i2c_eq (a : Nat) : EEPROM_GetI2CAddress a = 0xA0 + 2 * (a / 256 % 8) := by
  unfold EEPROM_GetI2CAddress EEPROM_I2C_ADDR u8
  simp only [block_eq]
  rw [or_base_shift _ (Nat.mod_lt _ (by norm_num))]
  omega

theorem inblock_eq (a : Nat) : EEPROM_GetAddressInBlock a = a % 256 := by
  unfold EEPROM_GetAddressInBlock u16
  rw [show (0xFF : Nat) = 2 ^ 8 - 1 by norm_num, Nat.and_pow_two_sub_one_eq_mod]
  omega

/-- C2: for a valid linear address `a` (`a < 2048`) the block is `a / 256`, a value in
`0..7`, and the address in the block is `a % 256`, a value in `0..255`. -/
theorem C2_block_and_offset (a : Nat) (ha : a < EEPROM_TOTAL_SIZE) :
    EEPROM_GetBlockFromAddress a = a / 256 ∧ EEPROM_GetBlockFromAddress a ≤ 7 ∧
    EEPROM_GetAddressInBlock a = a % 256 ∧ EEPROM_GetAddressInBlock a ≤ 255 := by
  unfold EEPROM_TOTAL_SIZE at ha
  rw [block_eq, inblock_eq]
  omega

theorem C2_block_and_offset_witness :
    (1034 : Nat) < EEPROM_TOTAL_SIZE ∧
    EEPROM_GetBlockFromAddress 1034 = 1034 / 256 ∧ EEPROM_GetBlockFromAddress 1034 ≤ 7 ∧
    EEPROM_GetAddressInBlock 1034 = 1034 % 256 ∧ EEPROM_GetAddressInBlock 1034 ≤ 255 :=
  ⟨by decide, C2_block_and_offset 1034 (by decide)⟩

/-- C3: for a valid linear address `a` the device address is `0xA0 | (block << 1)` with
no bit lost in the 8-bit result: bits 1..3 hold the block, the upper four bits are
`0xA`, bit 0 is clear, the value is `0xA0 + 2 * block` and is one of
`0xA0, 0xA2, ..., 0xAE`. -/
theorem C3_device_address (a : Nat) :
    EEPROM_GetI2CAddress a = 0xA0 ||| (EEPROM_GetBlockFromAddress a <<< 1) ∧
    (EEPROM_GetI2CAddress a >>> 1) &&& 0x07 = EEPROM_GetBlockFromAddress a ∧
    EEPROM_GetI2CAddress a >>> 4 = 0xA ∧
    EEPROM_GetI2CAddress a &&& 1 = 0 ∧
    EEPROM_GetI2CAddress a = 0xA0 + 2 * EEPROM_GetBlockFromAddress a ∧
    EEPROM_GetI2CAddress a ∈ [0xA0, 0xA2, 0xA4, 0xA6, 0xA8, 0xAA, 0xAC, 0xAE] := by
  have hb : a / 256 % 8 < 8 := Nat.mod_lt _ (by norm_num)
  rw [i2c_eq, block_eq]
  generalize a / 256 % 8 = b at hb
  interval_cases b <;> decide

/-- C4: for valid linear addresses `a` and `b` the device addresses agree exactly when
the blocks agree, and the pair (device address, address in block) determines the
linear address. -/
theorem C4_translation_injective (a b : Nat) (ha : a < EEPROM_TOTAL_SIZE)
    (hb : b < EEPROM_TOTAL_SIZE) :
    (EEPROM_GetI2CAddress a = EEPROM_GetI2CAddress b ↔
      EEPROM_GetBlockFromAddress a = EEPROM_GetBlockFromAddress b) ∧
    (EEPROM_GetI2CAddress a = EEPROM_GetI2CAddress b →
      EEPROM_GetAddressInBlock a = EEPROM_GetAddressInBlock b → a = b) := by
  unfold EEPROM_TOTAL_SIZE at ha hb
  simp only [i2c_eq, block_eq, inblock_eq]
  omega

theorem C4_translation_injective_witness :
    (10 : Nat) < EEPROM_TOTAL_SIZE ∧ (266 : Nat) < EEPROM_TOTAL_SIZE ∧
    ((EEPROM_GetI2CAddress 10 = EEPROM_GetI2CAddress 266 ↔
      EEPROM_GetBlockFromAddress 10 = EEPROM_GetBlockFromAddress 266) ∧
    (EEPROM_GetI2CAddress 10 = EEPROM_GetI2CAddress 266 →
      EEPROM_GetAddressInBlock 10 = EEPROM_GetAddressInBlock 266 → 10 = 266)) :=
  ⟨by decide, by decide, C4_translation_injective 10 266 (by decide) (by decide)⟩

/-! ## Page write -/

/-- C5: for `1 ≤ n ≤ 16`, a request with `(a % 16) + n > 16` or `a + n > 2048` makes
`EEPROM_WritePage` return `EEPROM_ERROR` with no call into the transport: the log of
transport calls, the transport state and the handle are unchanged. -/
theorem C5_WritePage_rejects (T : Transport σ) (s : Driver σ) (a n : Nat)
    (data : Option (List Nat)) (h1 : 1 ≤ n) (h16 : n ≤ EEPROM_PAGE_SIZE)
    (hbad : (a % EEPROM_PAGE_SIZE) + n > EEPROM_PAGE_SIZE ∨ a + n > EEPROM_TOTAL_SIZE) :
    (EEPROM_WritePage T s a data n).1 = EEPROM_ERROR ∧
    (EEPROM_WritePage T s a data n).2.trace = s.trace ∧
    (EEPROM_WritePage T s a data n).2.bus = s.bus ∧
    (EEPROM_WritePage T s a data n).2.hi2c_eeprom = s.hi2c_eeprom := by
  have hrej : a ≥ EEPROM_TOTAL_SIZE ∨ (a % EEPROM_PAGE_SIZE) + n > EEPROM_PAGE_SIZE := by
    unfold EEPROM_PAGE_SIZE EEPROM_TOTAL_SIZE at *
    omega
  unfold EEPROM_WritePage
  cases data with
  | none => simp
  | some buf =>
    by_cases hg : s.hi2c_eeprom = none ∨ n = 0 ∨ n > EEPROM_PAGE_SIZE
    · simp [hg]
    · simp only [hg, hrej, if_true, if_false, and_self]

theorem C5_WritePage_rejects_witness :
    1 ≤ 6 ∧ 6 ≤ EEPROM_PAGE_SIZE ∧
    ((12 % EEPROM_PAGE_SIZE) + 6 > EEPROM_PAGE_SIZE ∨ 12 + 6 > EEPROM_TOTAL_SIZE) ∧
    ((EEPROM_WritePage byteStore (freshDriver (some 1) blankStore) 12
        (some [1, 2, 3, 4, 5, 6]) 6).1 = EEPROM_ERROR ∧
    (EEPROM_WritePage byteStore (freshDriver (some 1) blankStore) 12
        (some [1, 2, 3, 4, 5, 6]) 6).2.trace = (freshDriver (some 1) blankStore).trace ∧
    (EEPROM_WritePage byteStore (freshDriver (some 1) blankStore) 12
        (some [1, 2, 3, 4, 5, 6]) 6).2.bus = (freshDriver (some 1) blankStore).bus ∧
    (EEPROM_WritePage byteStore (freshDriver (some 1) blankStore) 12
        (some [1, 2, 3, 4, 5, 6]) 6).2.hi2c_eeprom =
      (freshDriver (some 1) blankStore).hi2c_eeprom) :=
  ⟨by decide, by decide, by decide,
    C5_WritePage_rejects byteStore (freshDriver (some 1) blankStore) 12 6
      (some [1, 2, 3, 4, 5, 6]) (by decide) (by decide) (by decide)⟩

/-- What `EEPROM_WritePage` does on a request that passes its checks: one call of
`HAL_I2C_Mem_Write`, followed by the write delay when the call succeeded. -/
theorem WritePage_valid (T : Transport σ) (s : Driver σ) (h a n : Nat) (buf : List Nat)
    (hh : s.hi2c_eeprom = some h) (h1 : 1 ≤ n) (hpage : (a % 16) + n ≤ 16)
    (hsz : a + n ≤ 2048) :
    EEPROM_WritePage T s a (some buf) n =
      let w := T.memWrite s.bus (some h) (EEPROM_GetI2CAddress a) (a % 256) n (buf.take n)
      (if w.1 = true then EEPROM_OK else EEPROM_ERROR,
        { hi2c_eeprom := some h, bus := w.2,
          trace := s.trace ++ Event.memWrite (some h) (EEPROM_GetI2CAddress a) (a % 256) n
            (buf.take n) w.1 :: (if w.1 = true then [Event.delay 5] else []),
          pageCalls := s.pageCalls ++ [(a, n)] }) := by
  have hm : u8 (EEPROM_GetAddressInBlock a) = a % 256 := by
    rw [inblock_eq]; unfold u8; omega
  have c1 : ¬ (n = 0 ∨ n > 16) := by omega
  have c2 : ¬ (a ≥ 2048 ∨ a % 16 + n > 16) := by omega
  unfold EEPROM_WritePage
  simp only [hh, hm, EEPROM_PAGE_SIZE, EEPROM_TOTAL_SIZE, EEPROM_WRITE_DELAY,
    HAL_I2C_Mem_Write, HAL_Delay, c1, c2, false_or, if_false]
  cases hw : (T.memWrite s.bus (some h) (EEPROM_GetI2CAddress a) (a % 256) n (buf.take n)).1
    <;> simp

/-- C6: with an initialised handle and a non-null buffer, a request with `1 ≤ n ≤ 16`,
`(a % 16) + n ≤ 16` and `a + n ≤ 2048` makes `EEPROM_WritePage` issue exactly one write
transfer, of the `n` bytes `buf[0..n-1]`, to device address `EEPROM_GetI2CAddress a`
and memory address `EEPROM_GetAddressInBlock a`; the result is `EEPROM_OK` exactly when
that transfer succeeds, and the only other thing logged is the write delay after a
success. -/
theorem C6_WritePage_one_transfer (T : Transport σ) (s : Driver σ) (h a n : Nat)
    (buf : List Nat) (hh : s.hi2c_eeprom = some h) (h1 : 1 ≤ n)
    (hpage : (a % 16) + n ≤ 16) (hsz : a + n ≤ 2048) (hbuf : n ≤ buf.length) :
    ∃ ok : Bool,
      ok = (T.memWrite s.bus (some h) (EEPROM_GetI2CAddress a)
              (EEPROM_GetAddressInBlock a) n (buf.take n)).1 ∧
      (EEPROM_WritePage T s a (some buf) n).2.trace =
        s.trace ++ Event.memWrite (some h) (EEPROM_GetI2CAddress a)
          (EEPROM_GetAddressInBlock a) n (buf.take n) ok ::
          (if ok = true then [Event.delay EEPROM_WRITE_DELAY] else []) ∧
      (buf.take n).length = n ∧
      ((EEPROM_WritePage T s a (some buf) n).1 = EEPROM_OK ↔ ok = true) ∧
      ((EEPROM_WritePage T s a (some buf) n).1 = EEPROM_ERROR ↔ ok = false) := by
  refine ⟨_, rfl, ?_⟩
  rw [WritePage_valid T s h a n buf hh h1 hpage hsz, inblock_eq]
  simp only [EEPROM_WRITE_DELAY]
  refine ⟨trivial, by simp [hbuf], ?_, ?_⟩ <;>
    cases (T.memWrite s.bus (some h) (EEPROM_GetI2CAddress a) (a % 256) n (buf.take n)).1
    <;> simp

theorem C6_WritePage_one_transfer_witness :
    (freshDriver (some 1) blankStore).hi2c_eeprom = some 1 ∧ 1 ≤ 6 ∧
    (266 % 16) + 6 ≤ 16 ∧ 266 + 6 ≤ 2048 ∧ 6 ≤ [170, 187, 204, 221, 238, 255].length ∧
    ∃ ok : Bool,
      ok = (byteStore.memWrite (freshDriver (some 1) blankStore).bus (some 1)
              (EEPROM_GetI2CAddress 266) (EEPROM_GetAddressInBlock 266) 6
              ([170, 187, 204, 221, 238, 255].take 6)).1 ∧
      (EEPROM_WritePage byteStore (freshDriver (some 1) blankStore) 266
          (some [170, 187, 204, 221, 238, 255]) 6).2.trace =
        (freshDriver (some 1) blankStore).trace ++
          Event.memWrite (some 1) (EEPROM_GetI2CAddress 266)
            (EEPROM_GetAddressInBlock 266) 6 ([170, 187, 204, 221, 238, 255].take 6) ok ::
          (if ok = true then [Event.delay EEPROM_WRITE_DELAY] else []) ∧
      ([170, 187, 204, 221, 238, 255].take 6).length = 6 ∧
      ((EEPROM_WritePage byteStore (freshDriver (some 1) blankStore) 266
          (some [170, 187, 204, 221, 238, 255]) 6).1 = EEPROM_OK ↔ ok = true) ∧
      ((EEPROM_WritePage byteStore (freshDriver (some 1) blankStore) 266
          (some [170, 187, 204, 221, 238, 255]) 6).1 = EEPROM_ERROR ↔ ok = false) :=
  ⟨rfl, by decide, by decide, by decide, by decide,
    C6_WritePage_one_transfer byteStore (freshDriver (some 1) blankStore) 1 266 6
      [170, 187, 204, 221, 238, 255] rfl (by decide) (by decide) (by decide) (by decide)⟩

/-! ## Range checks of the buffered transfers -/

/-- C7: for every `a` and `n` whose sum exceeds 2048 (the sum is formed in `int`, without
wrapping to 16 bits, so `a = 0xFFFF`, `n = 1` is covered), `EEPROM_ReadBuffer` and `EEPROM_WriteBuffer` return `EEPROM_ERROR` and leave
the caller's buffer and the whole driver state, including the log of transport calls,
as they were. -/
theorem C7_buffer_range_rejected (T : Transport σ) (fuel : Nat) (s : Driver σ) (a n : Nat)
    (data : Option (List Nat)) (hsum : a + n > EEPROM_TOTAL_SIZE) :
    EEPROM_ReadBuffer T fuel s a data n = some (EEPROM_ERROR, data, s) ∧
    EEPROM_WriteBuffer T fuel s a data n = some (EEPROM_ERROR, s) := by
  unfold EEPROM_ReadBuffer EEPROM_WriteBuffer
  cases data with
  | none => exact ⟨rfl, rfl⟩
  | some buf =>
    by_cases hg : s.hi2c_eeprom = none ∨ n = 0
    · simp [hg]
    · simp [hg, hsum]

theorem C7_buffer_range_rejected_witness :
    65535 + 1 > EEPROM_TOTAL_SIZE ∧
    (EEPROM_ReadBuffer byteStore 4 (freshDriver (some 1) blankStore) 65535 (some [0]) 1 =
        some (EEPROM_ERROR, some [0], freshDriver (some 1) blankStore) ∧
     EEPROM_WriteBuffer byteStore 4 (freshDriver (some 1) blankStore) 65535 (some [0]) 1 =
        some (EEPROM_ERROR, freshDriver (some 1) blankStore)) :=
  ⟨by decide,
    C7_buffer_range_rejected byteStore 4 (freshDriver (some 1) blankStore) 65535 1 (some [0])
      (by decide)⟩

/-! ## The write splitter -/

/-- One iteration of the write loop on a request inside the device, with the 16-bit
arithmetic resolved. -/
theorem WriteBuffer_loop_step (T : Transport σ) (s : Driver σ) (a n : Nat) (data : List Nat)
    (fuel bw : Nat) (hs : a + n ≤ 2048) (hb : bw < n) :
    EEPROM_WriteBuffer_loop T a n data (fuel + 1) bw s =
      if (EEPROM_WritePage T s (a + bw) (some (data.drop bw))
            (min (16 - (a + bw) % 16) (n - bw))).1 ≠ EEPROM_OK then
        some (EEPROM_ERROR, (EEPROM_WritePage T s (a + bw) (some (data.drop bw))
            (min (16 - (a + bw) % 16) (n - bw))).2)
      else
        EEPROM_WriteBuffer_loop T a n data fuel (bw + min (16 - (a + bw) % 16) (n - bw))
          (EEPROM_WritePage T s (a + bw) (some (data.drop bw))
            (min (16 - (a + bw) % 16) (n - bw))).2 := by
  have e1 : u16 (a + bw) = a + bw := by unfold u16; omega
  have e2 : u16 ((a + bw) % EEPROM_PAGE_SIZE) = (a + bw) % 16 := by
    unfold u16 EEPROM_PAGE_SIZE; omega
  have e3 : wrap16 ((EEPROM_PAGE_SIZE : Int) - (((a + bw) % 16 : Nat) : Int)) =
      16 - (a + bw) % 16 := by
    unfold wrap16 EEPROM_PAGE_SIZE; omega
  have e4 : wrap16 ((n : Int) - (bw : Int)) = n - bw := by unfold wrap16; omega
  have e5 : (if 16 - (a + bw) % 16 < n - bw then 16 - (a + bw) % 16 else n - bw) =
      min (16 - (a + bw) % 16) (n - bw) := by
    split <;> omega
  have e6 : u16 (bw + min (16 - (a + bw) % 16) (n - bw)) =
      bw + min (16 - (a + bw) % 16) (n - bw) := by
    unfold u16; omega
  rw [EEPROM_WriteBuffer_loop]
  simp only [hb, if_true, e1, e2, e3, e4, e5, e6]

/-! ## The transfer plan -/

theorem totalLen_cons (c : Nat × Nat) (l : List (Nat × Nat)) :
    totalLen (c :: l) = c.2 + totalLen l := by
  simp [totalLen]

theorem totalLen_nil : totalLen [] = 0 := rfl

/-- Every piece of a plan is non-empty, at most `g` long, inside one `g`-aligned unit and
inside the request. -/
theorem segments_mem (g : Nat) (hg : 0 < g) (fuel : Nat) : ∀ (c0 rem : Nat) (c : Nat × Nat),
    c ∈ segments g fuel c0 rem → 1 ≤ c.2 ∧ c.2 ≤ g ∧ c.1 % g + c.2 ≤ g ∧
      c0 ≤ c.1 ∧ c.1 + c.2 ≤ c0 + rem := by
  induction fuel with
  | zero => intro c0 rem c hc; simp [segments] at hc
  | succ k ih =>
    intro c0 rem c hc
    rw [segments] at hc
    by_cases hr : rem = 0
    · simp [hr] at hc
    · simp only [hr, if_false, List.mem_cons] at hc
      have hlt := Nat.mod_lt c0 hg
      rcases hc with rfl | hc
      · simp only; omega
      · have := ih _ _ c hc
        omega

/-- The plan does not depend on the bound once the bound covers the request. -/
theorem segments_fuel (g : Nat) (hg : 0 < g) (f1 : Nat) : ∀ (f2 c rem : Nat),
    rem ≤ f1 → rem ≤ f2 → segments g f1 c rem = segments g f2 c rem := by
  induction f1 with
  | zero =>
    intro f2 c rem h1 h2
    have : rem = 0 := by omega
    subst this
    cases f2 <;> simp [segments]
  | succ k ih =>
    intro f2 c rem h1 h2
    by_cases hr : rem = 0
    · subst hr; cases f2 <;> simp [segments]
    · cases f2 with
      | zero => omega
      | succ j =>
        have hlt := Nat.mod_lt c hg
        simp only [segments, hr, if_false]
        rw [ih j _ _ (by omega) (by omega)]

/-- The pieces of a plan add up to the request. -/
theorem segments_total (g : Nat) (hg : 0 < g) (fuel : Nat) : ∀ (c rem : Nat),
    rem ≤ fuel → totalLen (segments g fuel c rem) = rem := by
  induction fuel with
  | zero => intro c rem h; simp [segments, totalLen]; omega
  | succ k ih =>
    intro c rem h
    by_cases hr : rem = 0
    · simp [segments, hr, totalLen]
    · have hlt := Nat.mod_lt c hg
      simp only [segments, hr, if_false, totalLen_cons]
      rw [ih _ _ (by omega)]
      omega

/-- The pieces of a plan follow one another from the start of the request, and each has
the length the splitting rule gives for the bytes still to move. -/
theorem segments_getD (g : Nat) (fuel : Nat) : ∀ (c rem i : Nat),
    i < (segments g fuel c rem).length →
    ((segments g fuel c rem).getD i (0, 0)).1 = c + totalLen ((segments g fuel c rem).take i) ∧
    ((segments g fuel c rem).getD i (0, 0)).2 =
      min (g - ((segments g fuel c rem).getD i (0, 0)).1 % g)
        (rem - totalLen ((segments g fuel c rem).take i)) := by
  induction fuel with
  | zero => intro c rem i hi; simp [segments] at hi
  | succ k ih =>
    intro c rem i hi
    by_cases hr : rem = 0
    · simp [segments, hr] at hi
    · simp only [segments, hr, if_false] at hi ⊢
      cases i with
      | zero => simp [totalLen]
      | succ j =>
        simp only [List.length_cons, Nat.add_lt_add_iff_right] at hi
        have := ih (c + min (g - c % g) rem) (rem - min (g - c % g) rem) j hi
        simp only [List.getD_cons_succ, List.take_succ_cons, totalLen_cons]
        constructor
        · rw [this.1]; omega
        · rw [this.2]
          congr 1
          omega

theorem filterMap_writeArgs_write (hi2c : Option Nat) (dev mem size : Nat) (d : List Nat)
    (ok : Bool) (tr : List Event) :
    (tr ++ Event.memWrite hi2c dev mem size d ok ::
        (if ok = true then [Event.delay 5] else [])).filterMap Event.writeArgs =
      tr.filterMap Event.writeArgs ++ [(dev, mem, size)] := by
  cases ok <;> simp [List.filterMap_append, List.filterMap_cons, Event.writeArgs]

/-- The write loop on a request inside the device, over any transport: it returns, the
calls of `EEPROM_WritePage` it makes are an initial part of the write plan, all of it
when the result is `EEPROM_OK`, and each call issues one write transfer with the
translated address and the size of the call. -/
theorem WriteBuffer_loop_calls (T : Transport σ) (h a n : Nat) (data : List Nat)
    (hs : a + n ≤ 2048) : ∀ (fuel bw : Nat) (s : Driver σ),
    s.hi2c_eeprom = some h → bw ≤ n → n - bw ≤ fuel →
    ∃ r m, EEPROM_WriteBuffer_loop T a n data fuel bw s = some r ∧
      m ≤ (segments 16 fuel (a + bw) (n - bw)).length ∧
      r.2.pageCalls = s.pageCalls ++ (segments 16 fuel (a + bw) (n - bw)).take m ∧
      r.2.trace.filterMap Event.writeArgs = s.trace.filterMap Event.writeArgs ++
        ((segments 16 fuel (a + bw) (n - bw)).take m).map
          (fun c => (EEPROM_GetI2CAddress c.1, EEPROM_GetAddressInBlock c.1, c.2)) ∧
      (r.1 = EEPROM_OK → m = (segments 16 fuel (a + bw) (n - bw)).length) ∧
      (r.1 = EEPROM_OK ∨ r.1 = EEPROM_ERROR) := by
  intro fuel
  induction fuel with
  | zero =>
    intro bw s _ hbw hf
    have : ¬ bw < n := by omega
    exact ⟨(EEPROM_OK, s), 0, by simp [EEPROM_WriteBuffer_loop, this], by simp [segments]⟩
  | succ k ih =>
    intro bw s hh hbw hf
    by_cases hlt : bw < n
    · have hne : ¬ (n - bw = 0) := by omega
      have hlen1 : 1 ≤ min (16 - (a + bw) % 16) (n - bw) := by omega
      have hpg : (a + bw) % 16 + min (16 - (a + bw) % 16) (n - bw) ≤ 16 := by omega
      have hsz : a + bw + min (16 - (a + bw) % 16) (n - bw) ≤ 2048 := by omega
      rw [WriteBuffer_loop_step T s a n data k bw hs hlt,
        WritePage_valid T s h (a + bw) _ (data.drop bw) hh hlen1 hpg hsz]
      simp only [segments, hne, if_false]
      generalize hlen : min (16 - (a + bw) % 16) (n - bw) = len at *
      generalize hw : T.memWrite s.bus (some h) (EEPROM_GetI2CAddress (a + bw))
        ((a + bw) % 256) len ((data.drop bw).take len) = w
      cases hok : w.1 with
      | false =>
        refine ⟨_, 1, by simp; rfl, ?_⟩
        simp [inblock_eq, Event.writeArgs, List.filterMap_append]
      | true =>
        simp only [if_true, ne_eq, not_true_eq_false, if_false]
        obtain ⟨r, m, hr, hm, hpc, htr, hokm, hst⟩ :=
          ih (bw + len) ⟨some h, w.2,
            s.trace ++ Event.memWrite (some h) (EEPROM_GetI2CAddress (a + bw))
              ((a + bw) % 256) len ((data.drop bw).take len) true :: [Event.delay 5],
            s.pageCalls ++ [(a + bw, len)]⟩ rfl (by omega) (by omega)
        have e1 : a + (bw + len) = a + bw + len := by omega
        have e2 : n - (bw + len) = n - bw - len := by omega
        rw [e1, e2] at hm hpc htr hokm
        refine ⟨r, m + 1, hr, by simpa using hm, ?_, ?_, ?_, hst⟩
        · simpa using hpc
        · rw [htr]
          simp [inblock_eq, Event.writeArgs, List.filterMap_append]
        · intro h1; simpa using hokm h1
    · have : bw = n := by omega
      subst this
      refine ⟨(EEPROM_OK, s), 0, ?_, ?_⟩
      · rw [EEPROM_WriteBuffer_loop]; simp
      · simp [segments]

/-- A buffered write that passes the checks of `EEPROM_WriteBuffer` is its loop. -/
theorem WriteBuffer_eq_loop (T : Transport σ) (fuel : Nat) (s : Driver σ) (h a n : Nat)
    (buf : List Nat) (hh : s.hi2c_eeprom = some h) (h1 : 1 ≤ n) (hs : a + n ≤ 2048) :
    EEPROM_WriteBuffer T fuel s a (some buf) n = EEPROM_WriteBuffer_loop T a n buf fuel 0 s := by
  have c1 : ¬ (n = 0) := by omega
  have c2 : ¬ (a + n > 2048) := by omega
  simp [EEPROM_WriteBuffer, hh, c1, c2, EEPROM_TOTAL_SIZE]

/-- C8: for `n ≥ 1` and `a + n ≤ 2048`, `EEPROM_WriteBuffer` returns, and every
`(addr, len)` it passes to `EEPROM_WritePage` has `1 ≤ len ≤ 16` and
`(addr % 16) + len ≤ 16`; each of these calls reaches the transport (none is rejected by
the checks of `EEPROM_WritePage`): the write transfers issued are, call for call, the
translated address and the length of the chunk, and none of them spans two pages.  When
the result is `EEPROM_OK` the calls are exactly the chunks of the write plan. -/
theorem C8_write_chunks_in_page (T : Transport σ) (fuel : Nat) (s : Driver σ) (a n : Nat)
    (data : Option (List Nat)) (h1 : 1 ≤ n) (hs : a + n ≤ 2048) (hf : n ≤ fuel) :
    ∃ r calls transfers, EEPROM_WriteBuffer T fuel s a data n = some r ∧
      r.2.pageCalls = s.pageCalls ++ calls ∧
      (∀ c ∈ calls, 1 ≤ c.2 ∧ c.2 ≤ 16 ∧ c.1 % 16 + c.2 ≤ 16) ∧
      r.2.trace.filterMap Event.writeArgs = s.trace.filterMap Event.writeArgs ++ transfers ∧
      transfers = calls.map
        (fun c => (EEPROM_GetI2CAddress c.1, EEPROM_GetAddressInBlock c.1, c.2)) ∧
      (∀ t ∈ transfers, 1 ≤ t.2.2 ∧ t.2.1 % 16 + t.2.2 ≤ 16) ∧
      (r.1 = EEPROM_OK → calls = writeChunks a n) := by
  have hnone : ∀ r0 : EEPROM_Status × Driver σ, r0 = (EEPROM_ERROR, s) →
      EEPROM_WriteBuffer T fuel s a data n = some r0 →
      ∃ r calls transfers, EEPROM_WriteBuffer T fuel s a data n = some r ∧
        r.2.pageCalls = s.pageCalls ++ calls ∧
        (∀ c ∈ calls, 1 ≤ c.2 ∧ c.2 ≤ 16 ∧ c.1 % 16 + c.2 ≤ 16) ∧
        r.2.trace.filterMap Event.writeArgs = s.trace.filterMap Event.writeArgs ++ transfers ∧
        transfers = calls.map
          (fun c => (EEPROM_GetI2CAddress c.1, EEPROM_GetAddressInBlock c.1, c.2)) ∧
        (∀ t ∈ transfers, 1 ≤ t.2.2 ∧ t.2.1 % 16 + t.2.2 ≤ 16) ∧
        (r.1 = EEPROM_OK → calls = writeChunks a n) := by
    intro r0 hr0 he
    subst hr0
    exact ⟨_, [], [], he, by simp, by simp, by simp, rfl, by simp,
      fun hcon => by cases hcon⟩
  cases data with
  | none => exact hnone _ rfl (by simp [EEPROM_WriteBuffer])
  | some buf =>
    cases hh : s.hi2c_eeprom with
    | none => exact hnone _ rfl (by simp [EEPROM_WriteBuffer, hh])
    | some h =>
      obtain ⟨r, m, hr, _, hpc, htr, hok, _⟩ :=
        WriteBuffer_loop_calls T h a n buf hs fuel 0 s hh (by omega) (by omega)
      have hplan : segments 16 fuel (a + 0) (n - 0) = writeChunks a n :=
        segments_fuel 16 (by norm_num) fuel n a n hf (le_refl n)
      rw [hplan] at hpc htr hok
      have hmem : ∀ c ∈ (writeChunks a n).take m,
          1 ≤ c.2 ∧ c.2 ≤ 16 ∧ c.1 % 16 + c.2 ≤ 16 := by
        intro c hc
        have := segments_mem 16 (by norm_num) n a n c (List.mem_of_mem_take hc)
        omega
      refine ⟨r, _, _, ?_, hpc, hmem, htr, rfl, ?_, ?_⟩
      · rw [WriteBuffer_eq_loop T fuel s h a n buf hh h1 hs]; exact hr
      · intro t ht
        obtain ⟨c, hc, rfl⟩ := List.mem_map.mp ht
        have := hmem c hc
        simp only [inblock_eq]
        omega
      · intro h0
        rw [hok h0, List.take_length]

theorem C8_write_chunks_in_page_witness :
    1 ≤ 6 ∧ 14 + 6 ≤ 2048 ∧ 6 ≤ 6 ∧
    ∃ r calls transfers,
      EEPROM_WriteBuffer byteStore 6 (freshDriver (some 1) blankStore) 14
        (some [1, 2, 3, 4, 5, 6]) 6 = some r ∧
      r.2.pageCalls = (freshDriver (some 1) blankStore).pageCalls ++ calls ∧
      (∀ c ∈ calls, 1 ≤ c.2 ∧ c.2 ≤ 16 ∧ c.1 % 16 + c.2 ≤ 16) ∧
      r.2.trace.filterMap Event.writeArgs =
        (freshDriver (some 1) blankStore).trace.filterMap Event.writeArgs ++ transfers ∧
      transfers = calls.map
        (fun c => (EEPROM_GetI2CAddress c.1, EEPROM_GetAddressInBlock c.1, c.2)) ∧
      (∀ t ∈ transfers, 1 ≤ t.2.2 ∧ t.2.1 % 16 + t.2.2 ≤ 16) ∧
      (r.1 = EEPROM_OK → calls = writeChunks 14 6) :=
  ⟨by decide, by decide, by decide,
    C8_write_chunks_in_page byteStore 6 (freshDriver (some 1) blankStore) 14 6
      (some [1, 2, 3, 4, 5, 6]) (by decide) (by decide) (by decide)⟩

/-! ## The read splitter -/

/-- One iteration of the read loop on a request inside the device, with the 16-bit
arithmetic resolved. -/
theorem ReadBuffer_loop_step (T : Transport σ) (s : Driver σ) (a n : Nat) (data : List Nat)
    (fuel br : Nat) (hs : a + n ≤ 2048) (hb : br < n) :
    EEPROM_ReadBuffer_loop T a n fuel.succ br data s =
      if (HAL_I2C_Mem_Read T s s.hi2c_eeprom (EEPROM_GetI2CAddress (a + br)) ((a + br) % 256)
            data br (min (256 - (a + br) % 256) (n - br))).1 ≠ true then
        some (EEPROM_ERROR,
          (HAL_I2C_Mem_Read T s s.hi2c_eeprom (EEPROM_GetI2CAddress (a + br)) ((a + br) % 256)
            data br (min (256 - (a + br) % 256) (n - br))).2.1,
          (HAL_I2C_Mem_Read T s s.hi2c_eeprom (EEPROM_GetI2CAddress (a + br)) ((a + br) % 256)
            data br (min (256 - (a + br) % 256) (n - br))).2.2)
      else
        EEPROM_ReadBuffer_loop T a n fuel (br + min (256 - (a + br) % 256) (n - br))
          (HAL_I2C_Mem_Read T s s.hi2c_eeprom (EEPROM_GetI2CAddress (a + br)) ((a + br) % 256)
            data br (min (256 - (a + br) % 256) (n - br))).2.1
          (HAL_I2C_Mem_Read T s s.hi2c_eeprom (EEPROM_GetI2CAddress (a + br)) ((a + br) % 256)
            data br (min (256 - (a + br) % 256) (n - br))).2.2 := by
  have e1 : u16 (a + br) = a + br := by unfold u16; omega
  have e2 : u8 (EEPROM_GetAddressInBlock (a + br)) = (a + br) % 256 := by
    rw [inblock_eq]; unfold u8; omega
  have e3 : u16 ((a + br) &&& 0xFF00) = (a + br) - (a + br) % 256 := by
    rw [and_ff00_eq]; unfold u16; omega
  have e4 : u16 ((a + br) - (a + br) % 256 + 0xFF) = (a + br) - (a + br) % 256 + 255 := by
    unfold u16; omega
  have e5 : wrap16 ((((a + br) - (a + br) % 256 + 255 : Nat) : Int) - ((a + br : Nat) : Int) + 1)
      = 256 - (a + br) % 256 := by
    unfold wrap16; omega
  have e6 : wrap16 ((n : Int) - (br : Int)) = n - br := by unfold wrap16; omega
  have e7 : (if 256 - (a + br) % 256 < n - br then 256 - (a + br) % 256 else n - br) =
      min (256 - (a + br) % 256) (n - br) := by
    split <;> omega
  have e8 : (if min (256 - (a + br) % 256) (n - br) > 256 then 256
      else min (256 - (a + br) % 256) (n - br)) = min (256 - (a + br) % 256) (n - br) := by
    split <;> omega
  have e9 : u16 (br + min (256 - (a + br) % 256) (n - br)) =
      br + min (256 - (a + br) % 256) (n - br) := by
    unfold u16; omega
  rw [EEPROM_ReadBuffer_loop]
  simp only [hb, if_true, e1, e2, e3, e4, e5, e6, e7, e8, e9]

/-- The read loop on a request inside the device, over a transport whose reads never
fail: it returns `EEPROM_OK` after issuing one read per piece of the plan, in order. -/
theorem ReadBuffer_loop_plan (T : Transport σ) (Inv : σ → Prop) (h a n : Nat)
    (hs : a + n ≤ 2048) (hT : NeverFails T Inv) :
    ∀ (fuel br : Nat) (data : List Nat) (s : Driver σ),
    s.hi2c_eeprom = some h → Inv s.bus → br ≤ n → n - br ≤ fuel →
    ∃ r, EEPROM_ReadBuffer_loop T a n fuel br data s = some r ∧ r.1 = EEPROM_OK ∧
      r.2.2.trace = s.trace ++
        (segments 256 fuel (a + br) (n - br)).map (readEvent (some h) a true) := by
  intro fuel
  induction fuel with
  | zero =>
    intro br data s _ _ hbr hf
    have : ¬ br < n := by omega
    exact ⟨(EEPROM_OK, data, s), by simp [EEPROM_ReadBuffer_loop, this], rfl,
      by simp [segments]⟩
  | succ k ih =>
    intro br data s hh hI hbr hf
    by_cases hlt : br < n
    · have hne : ¬ (n - br = 0) := by omega
      rw [ReadBuffer_loop_step T s a n data k br hs hlt]
      simp only [segments, hne, if_false]
      generalize hlen : min (256 - (a + br) % 256) (n - br) = len at *
      have hok : (HAL_I2C_Mem_Read T s s.hi2c_eeprom (EEPROM_GetI2CAddress (a + br))
          ((a + br) % 256) data br len).1 = true := (hT _ _ _ _ _ hI).1.1
      simp only [hok, ne_eq, not_true_eq_false, if_false]
      obtain ⟨r, hr, hst, htr⟩ := ih (br + len) _ _
        (show (HAL_I2C_Mem_Read T s s.hi2c_eeprom (EEPROM_GetI2CAddress (a + br))
          ((a + br) % 256) data br len).2.2.hi2c_eeprom = some h from hh)
        (hT _ _ _ _ _ hI).1.2 (by omega) (by omega)
      have e1 : a + (br + len) = a + br + len := by omega
      have e2 : n - (br + len) = n - br - len := by omega
      rw [e1, e2] at htr
      refine ⟨r, hr, hst, ?_⟩
      rw [htr]
      have hok2 := (hT s.bus (some h) (EEPROM_GetI2CAddress (a + br)) ((a + br) % 256) len hI).1.1
      simp [HAL_I2C_Mem_Read, readEvent, inblock_eq, hok2, hh]
    · have : br = n := by omega
      subst this
      refine ⟨(EEPROM_OK, data, s), ?_, rfl, ?_⟩
      · rw [EEPROM_ReadBuffer_loop]; simp
      · simp [segments]


/-- A buffered read that passes the checks of `EEPROM_ReadBuffer` is its loop. -/
theorem ReadBuffer_eq_loop (T : Transport σ) (fuel : Nat) (s : Driver σ) (h a n : Nat)
    (buf : List Nat) (hh : s.hi2c_eeprom = some h) (h1 : 1 ≤ n) (hs : a + n ≤ 2048) :
    EEPROM_ReadBuffer T fuel s a (some buf) n =
      (EEPROM_ReadBuffer_loop T a n fuel 0 buf s).map (fun r => (r.1, some r.2.1, r.2.2)) := by
  have c1 : ¬ (n = 0) := by omega
  have c2 : ¬ (a + n > 2048) := by omega
  simp [EEPROM_ReadBuffer, hh, c1, c2, EEPROM_TOTAL_SIZE]

/-- The byte store never fails from the states whose schedule has no fault. -/
theorem byteStore_neverFails : NeverFails byteStore NoFault := by
  intro st hi dev mem size hI
  have h0 := hI st.calls
  refine ⟨?_, fun bytes => ?_⟩ <;> simp only [byteStore, h0] <;> exact ⟨trivial, hI⟩

theorem blankStore_noFault : NoFault blankStore := fun _ => rfl

/-- C9: with an initialised handle, a non-null buffer, `n ≥ 1`, `a + n ≤ 2048` and a
transport that never fails, `EEPROM_ReadBuffer` returns `EEPROM_OK` and the transfers it
issues are exactly the reads of the segments of the read plan, in order: the segment
starting at linear address `c` with length `len` is read from device address
`EEPROM_GetI2CAddress c`, memory address `c % 256`, into buffer offset `c - a`.  The
segments follow one another from `a`, each has length
`min (256 - c % 256) (bytes still to read)`, stays inside its 256-byte block, and the
lengths add up to `n`. -/
theorem C9_read_segments (T : Transport σ) (Inv : σ → Prop) (fuel : Nat) (s : Driver σ)
    (h a n : Nat) (buf : List Nat) (hh : s.hi2c_eeprom = some h) (h1 : 1 ≤ n)
    (hs : a + n ≤ 2048) (hf : n ≤ fuel) (hT : NeverFails T Inv) (hI : Inv s.bus) :
    ∃ r, EEPROM_ReadBuffer T fuel s a (some buf) n = some r ∧ r.1 = EEPROM_OK ∧
      r.2.2.trace = s.trace ++ (readSegments a n).map
        (fun c => Event.memRead (some h) (EEPROM_GetI2CAddress c.1) (c.1 % 256) (c.1 - a)
          c.2 true) ∧
      totalLen (readSegments a n) = n ∧
      ∀ i, i < (readSegments a n).length →
        ((readSegments a n).getD i (0, 0)).1 = a + totalLen ((readSegments a n).take i) ∧
        ((readSegments a n).getD i (0, 0)).2 =
          min (256 - ((readSegments a n).getD i (0, 0)).1 % 256)
            (n - totalLen ((readSegments a n).take i)) ∧
        1 ≤ ((readSegments a n).getD i (0, 0)).2 ∧
        ((readSegments a n).getD i (0, 0)).1 % 256 + ((readSegments a n).getD i (0, 0)).2
          ≤ 256 := by
  obtain ⟨r, hr, hst, htr⟩ :=
    ReadBuffer_loop_plan T Inv h a n hs hT fuel 0 buf s hh hI (by omega) (by omega)
  have hplan : segments 256 fuel (a + 0) (n - 0) = readSegments a n := by
    unfold readSegments
    exact segments_fuel 256 (by norm_num) fuel n a n hf (le_refl n)
  have hev : readEvent (some h) a true = fun c => Event.memRead (some h)
      (EEPROM_GetI2CAddress c.1) (c.1 % 256) (c.1 - a) c.2 true := by
    funext c; simp [readEvent, inblock_eq]
  rw [hplan, hev] at htr
  refine ⟨(r.1, some r.2.1, r.2.2), ?_, hst, htr, ?_, ?_⟩
  · rw [ReadBuffer_eq_loop T fuel s h a n buf hh h1 hs, hr]; rfl
  · exact segments_total 256 (by norm_num) n a n (le_refl n)
  · intro i hi
    have hg := segments_getD 256 n a n i hi
    have hm := segments_mem 256 (by norm_num) n a n _
      (List.getD_eq_getElem (readSegments a n) (0, 0) hi ▸ List.getElem_mem hi)
    exact ⟨hg.1, hg.2, hm.1, hm.2.2.1⟩

theorem C9_read_segments_witness :
    (freshDriver (some 1) blankStore).hi2c_eeprom = some 1 ∧ 1 ≤ 6 ∧ 254 + 6 ≤ 2048 ∧ 6 ≤ 6 ∧
    NeverFails byteStore NoFault ∧ NoFault (freshDriver (some 1) blankStore).bus ∧
    ∃ r, EEPROM_ReadBuffer byteStore 6 (freshDriver (some 1) blankStore) 254
        (some [0, 0, 0, 0, 0, 0]) 6 = some r ∧ r.1 = EEPROM_OK ∧
      r.2.2.trace = (freshDriver (some 1) blankStore).trace ++ (readSegments 254 6).map
        (fun c => Event.memRead (some 1) (EEPROM_GetI2CAddress c.1) (c.1 % 256) (c.1 - 254)
          c.2 true) ∧
      totalLen (readSegments 254 6) = 6 ∧
      ∀ i, i < (readSegments 254 6).length →
        ((readSegments 254 6).getD i (0, 0)).1 = 254 + totalLen ((readSegments 254 6).take i) ∧
        ((readSegments 254 6).getD i (0, 0)).2 =
          min (256 - ((readSegments 254 6).getD i (0, 0)).1 % 256)
            (6 - totalLen ((readSegments 254 6).take i)) ∧
        1 ≤ ((readSegments 254 6).getD i (0, 0)).2 ∧
        ((readSegments 254 6).getD i (0, 0)).1 % 256 + ((readSegments 254 6).getD i (0, 0)).2
          ≤ 256 :=
  ⟨rfl, by decide, by decide, by decide, byteStore_neverFails, blankStore_noFault,
    C9_read_segments byteStore NoFault 6 (freshDriver (some 1) blankStore) 1 254 6
      [0, 0, 0, 0, 0, 0] rfl (by decide) (by decide) (by decide) byteStore_neverFails
      blankStore_noFault⟩

/-! ## The byte store -/

/-- Bytes stored without wrapping around the 8-bit memory address are found where they
were put; every other byte of the store is unchanged. -/
theorem storeBytes_apply (dev : Nat) (bs : List Nat) : ∀ (m : Nat → Nat → Nat) (a d x : Nat),
    a + bs.length ≤ 256 →
    storeBytes m dev a bs d x =
      if d = dev ∧ a ≤ x ∧ x < a + bs.length then bs.getD (x - a) 0 else m d x := by
  induction bs with
  | nil =>
    intro m a d x _
    have h0 : ¬ (d = dev ∧ a ≤ x ∧ x < a + 0) := by omega
    simp only [storeBytes, List.length_nil, h0, if_false]
  | cons b bs ih =>
    intro m a d x hlen
    simp only [List.length_cons] at hlen
    rw [storeBytes, ih _ _ _ _ (by omega)]
    have ha : a % 256 = a := by omega
    simp only [ha, List.length_cons]
    by_cases hd : d = dev
    · by_cases h1 : a + 1 ≤ x ∧ x < a + 1 + bs.length
      · have h2 : a ≤ x ∧ x < a + (bs.length + 1) := by omega
        have h3 : x - a = (x - (a + 1)) + 1 := by omega
        simp only [hd, h1, h2, and_self, if_true, true_and]
        rw [h3, List.getD_cons_succ]
      · by_cases h4 : x = a
        · subst h4
          simp [hd]
        · have h2 : ¬ (a ≤ x ∧ x < a + (bs.length + 1)) := by omega
          simp only [hd, h1, h2, h4, and_false, and_self, if_false, true_and]
    · simp [hd]

/-- A store of `bs` at the translation of linear address `c`, inside one block of the
device, seen through the translation. -/
theorem linear_storeBytes (m : Nat → Nat → Nat) (c x : Nat) (bs : List Nat)
    (hc : c % 256 + bs.length ≤ 256) (hc2 : c < 2048) (hx : x < 2048) :
    storeBytes m (EEPROM_GetI2CAddress c) (c % 256) bs (EEPROM_GetI2CAddress x)
        (EEPROM_GetAddressInBlock x) =
      if c ≤ x ∧ x < c + bs.length then bs.getD (x - c) 0
      else m (EEPROM_GetI2CAddress x) (EEPROM_GetAddressInBlock x) := by
  rw [storeBytes_apply _ _ _ _ _ _ hc]
  simp only [i2c_eq, inblock_eq]
  by_cases h1 : c ≤ x ∧ x < c + bs.length
  · have h2 : 160 + 2 * (x / 256 % 8) = 160 + 2 * (c / 256 % 8) ∧ c % 256 ≤ x % 256 ∧
        x % 256 < c % 256 + bs.length := by omega
    have h3 : x % 256 - c % 256 = x - c := by omega
    simp only [h1, h2, and_self, if_true, h3]
  · have h2 : ¬ (160 + 2 * (x / 256 % 8) = 160 + 2 * (c / 256 % 8) ∧ c % 256 ≤ x % 256 ∧
        x % 256 < c % 256 + bs.length) := by omega
    simp only [h1, h2, if_false]

theorem loadBytes_length (m : Nat → Nat → Nat) (dev a n : Nat) :
    (loadBytes m dev a n).length = n := by
  simp [loadBytes]

theorem loadBytes_getD (m : Nat → Nat → Nat) (dev a n i : Nat) (hi : i < n) :
    (loadBytes m dev a n).getD i 0 = m dev ((a + i) % 256) := by
  simp [loadBytes, List.getElem?_map, List.getElem?_range hi]

/-- A load at the translation of linear address `c`, inside one block of the device,
delivers the bytes at the linear addresses from `c` on. -/
theorem linear_loadBytes (st : ByteStore) (c n i : Nat) (hc : c % 256 + n ≤ 256)
    (hc2 : c + n ≤ 2048) (hi : i < n) :
    (loadBytes st.mem (EEPROM_GetI2CAddress c) (c % 256) n).getD i 0 = linear st (c + i) := by
  rw [loadBytes_getD _ _ _ _ _ hi]
  unfold linear
  simp only [i2c_eq, inblock_eq]
  have h1 : (c + i) / 256 % 8 = c / 256 % 8 := by omega
  have h2 : (c % 256 + i) % 256 = (c + i) % 256 := by omega
  rw [h1, h2]

theorem blit_length (buf : List Nat) (off : Nat) (bytes : List Nat)
    (h : off + bytes.length ≤ buf.length) : (blit buf off bytes).length = buf.length := by
  simp [blit]; omega

theorem blit_getD (buf : List Nat) (off : Nat) (bytes : List Nat) (i : Nat)
    (h : off + bytes.length ≤ buf.length) :
    (blit buf off bytes).getD i 0 =
      if off ≤ i ∧ i < off + bytes.length then bytes.getD (i - off) 0 else buf.getD i 0 := by
  unfold blit
  have hoff : (buf.take off).length = off := by simp; omega
  by_cases h1 : i < off
  · have h2 : ¬ (off ≤ i ∧ i < off + bytes.length) := by omega
    rw [List.append_assoc, List.getD_append _ _ _ _ (by omega)]
    simp only [h2, if_false]
    simp [List.getElem?_take, h1]
  · by_cases h3 : i < off + bytes.length
    · have h2 : off ≤ i ∧ i < off + bytes.length := by omega
      rw [List.getD_append _ _ _ _ (by simp; omega),
        List.getD_append_right _ _ _ _ (by omega), hoff]
      simp only [h2, and_self, if_true]
    · have h2 : ¬ (off ≤ i ∧ i < off + bytes.length) := by omega
      rw [List.getD_append_right _ _ _ _ (by simp; omega)]
      simp only [h2, if_false, List.length_append, hoff]
      simp only [List.getD_eq_getElem?_getD, List.getElem?_drop]
      congr 2
      omega

theorem getD_take_of_lt (l : List Nat) (n k : Nat) (hk : k < n) :
    (l.take n).getD k 0 = l.getD k 0 := by
  simp [List.getElem?_take, hk]

theorem getD_drop_add (l : List Nat) (n k : Nat) : (l.drop n).getD k 0 = l.getD (n + k) 0 := by
  simp [List.getElem?_drop]

/-- A page write that passes the checks, over the byte store: it makes one transfer,
touches no byte outside the chunk, and when the transfer is not scheduled to fail it
stores the chunk, waits and returns `EEPROM_OK`; otherwise it returns `EEPROM_ERROR`
right after the transfer. -/
theorem WritePage_byteStore (s : Driver ByteStore) (h c len : Nat) (buf : List Nat)
    (hh : s.hi2c_eeprom = some h) (h1 : 1 ≤ len) (hpage : c % 16 + len ≤ 16)
    (hsz : c + len ≤ 2048) (hbuf : len ≤ buf.length) :
    (EEPROM_WritePage byteStore s c (some buf) len).2.hi2c_eeprom = some h ∧
    (EEPROM_WritePage byteStore s c (some buf) len).2.bus.fault = s.bus.fault ∧
    (EEPROM_WritePage byteStore s c (some buf) len).2.bus.calls = s.bus.calls + 1 ∧
    (∀ x, x < 2048 → ¬ (c ≤ x ∧ x < c + len) →
      linear (EEPROM_WritePage byteStore s c (some buf) len).2.bus x = linear s.bus x) ∧
    (s.bus.fault s.bus.calls = none →
      (EEPROM_WritePage byteStore s c (some buf) len).1 = EEPROM_OK ∧
      (EEPROM_WritePage byteStore s c (some buf) len).2.trace = s.trace ++
        [Event.memWrite (some h) (EEPROM_GetI2CAddress c) (EEPROM_GetAddressInBlock c) len
          (buf.take len) true, Event.delay EEPROM_WRITE_DELAY] ∧
      ∀ x, c ≤ x → x < c + len →
        linear (EEPROM_WritePage byteStore s c (some buf) len).2.bus x = buf.getD (x - c) 0) ∧
    (s.bus.fault s.bus.calls ≠ none →
      (EEPROM_WritePage byteStore s c (some buf) len).1 = EEPROM_ERROR ∧
      (EEPROM_WritePage byteStore s c (some buf) len).2.trace = s.trace ++
        [Event.memWrite (some h) (EEPROM_GetI2CAddress c) (EEPROM_GetAddressInBlock c) len
          (buf.take len) false]) := by
  rw [WritePage_valid byteStore s h c len buf hh h1 hpage hsz]
  have hlen : (buf.take len).length = len := by simp [hbuf]
  have hc256 : c % 256 + len ≤ 256 := by omega
  cases hf : s.bus.fault s.bus.calls with
  | none =>
    simp only [byteStore, hf, if_true, inblock_eq, EEPROM_WRITE_DELAY, ne_eq,
      not_true_eq_false, false_implies, and_true, true_implies, true_and]
    refine ⟨?_, ?_⟩
    · intro x hx hnot
      unfold linear
      simp only
      rw [linear_storeBytes _ c x _ (by omega) (by omega) hx, hlen]
      simp only [hnot, if_false]
    · intro x hx1 hx2
      unfold linear
      simp only
      rw [linear_storeBytes _ c x _ (by omega) (by omega) (by omega), hlen]
      have : c ≤ x ∧ x < c + len := ⟨hx1, hx2⟩
      simp only [this, and_self, if_true]
      exact getD_take_of_lt _ _ _ (by omega)
  | some j =>
    simp only [byteStore, hf, inblock_eq, ne_eq, not_false_eq_true, true_implies,
      Bool.false_eq_true, if_false, and_true, true_and, false_implies]
    refine ⟨?_, fun hcon => Option.noConfusion hcon, fun _ => trivial⟩
    intro x hx hnot
    unfold linear
    simp only
    have hl2 : ((buf.take len).take j).length ≤ len := by simp
    rw [linear_storeBytes _ c x _ (by omega) (by omega) hx]
    have : ¬ (c ≤ x ∧ x < c + ((buf.take len).take j).length) := by omega
    simp only [this, if_false]

/-- The write loop over the byte store, on a request inside the device whose first `m`
transfers are not scheduled to fail and whose next transfer, if the plan has one, is:
the loop returns after the first `m` chunks of the plan were written and, if there is
one, the next chunk was attempted; bytes outside the request are untouched and the
bytes of the first `m` chunks hold the data. -/
theorem WriteBuffer_loop_byteStore (h a n : Nat) (data : List Nat) (hs : a + n ≤ 2048)
    (hd : n ≤ data.length) : ∀ (fuel bw m : Nat) (s : Driver ByteStore),
    s.hi2c_eeprom = some h → bw ≤ n → n - bw ≤ fuel →
    m ≤ (segments 16 fuel (a + bw) (n - bw)).length →
    (∀ i, i < m → s.bus.fault (s.bus.calls + i) = none) →
    (m < (segments 16 fuel (a + bw) (n - bw)).length →
      s.bus.fault (s.bus.calls + m) ≠ none) →
    ∃ r, EEPROM_WriteBuffer_loop byteStore a n data fuel bw s = some r ∧
      r.1 = (if m = (segments 16 fuel (a + bw) (n - bw)).length then EEPROM_OK
             else EEPROM_ERROR) ∧
      r.2.trace = s.trace ++
        ((segments 16 fuel (a + bw) (n - bw)).take m).flatMap (okWrite (some h) data a) ++
        (((segments 16 fuel (a + bw) (n - bw)).drop m).take 1).flatMap
          (badWrite (some h) data a) ∧
      r.2.bus.fault = s.bus.fault ∧
      r.2.hi2c_eeprom = some h ∧
      (∀ x, x < 2048 → (x < a + bw ∨ a + n ≤ x) → linear r.2.bus x = linear s.bus x) ∧
      (∀ x, a + bw ≤ x → x < a + bw + totalLen ((segments 16 fuel (a + bw) (n - bw)).take m) →
        linear r.2.bus x = data.getD (x - a) 0) := by
  intro fuel
  induction fuel with
  | zero =>
    intro bw m s hh hbw hf hm _ _
    have hnlt : ¬ bw < n := by omega
    simp only [segments, List.length_nil, Nat.le_zero] at hm
    subst hm
    refine ⟨(EEPROM_OK, s), by simp [EEPROM_WriteBuffer_loop, hnlt], ?_⟩
    simp [segments, hh, totalLen]
    intro x h1 h2; omega
  | succ k ih =>
    intro bw m s hh hbw hf hm hok hbad
    by_cases hlt : bw < n
    · have hne : ¬ (n - bw = 0) := by omega
      have hlen1 : 1 ≤ min (16 - (a + bw) % 16) (n - bw) := by omega
      have hpg : (a + bw) % 16 + min (16 - (a + bw) % 16) (n - bw) ≤ 16 := by omega
      have hsz : a + bw + min (16 - (a + bw) % 16) (n - bw) ≤ 2048 := by omega
      have hle : min (16 - (a + bw) % 16) (n - bw) ≤ n - bw := by omega
      rw [WriteBuffer_loop_step byteStore s a n data k bw hs hlt]
      simp only [segments, hne, if_false] at hm hbad ⊢
      generalize hlen : min (16 - (a + bw) % 16) (n - bw) = len at *
      obtain ⟨w1, w2, w3, w4, w5, w6⟩ := WritePage_byteStore s h (a + bw) len (data.drop bw) hh
        hlen1 hpg hsz (by simp; omega)
      generalize EEPROM_WritePage byteStore s (a + bw) (some (data.drop bw)) len = W at *
      cases m with
      | zero =>
        obtain ⟨t1, t2⟩ := w6 (hbad (by simp))
        refine ⟨(EEPROM_ERROR, W.2), by simp [t1], by simp, ?_, w2, w1, ?_, ?_⟩
        · simp [t2, badWrite, Nat.add_sub_cancel_left]
        · intro x hx hout
          exact w4 x hx (by omega)
        · intro x h1 h2
          simp [totalLen] at h2
          omega
      | succ j =>
        obtain ⟨t1, t2, t3⟩ := w5 (hok 0 (by omega))
        simp only [t1, ne_eq, not_true_eq_false, if_false]
        have hm2 : j ≤ (segments 16 k (a + (bw + len)) (n - (bw + len))).length := by
          have e1 : a + (bw + len) = a + bw + len := by omega
          have e2 : n - (bw + len) = n - bw - len := by omega
          rw [e1, e2]; simpa using hm
        obtain ⟨r, hr, hst, htr, hfl, hhd, hfr, hwr⟩ := ih (bw + len) j W.2 w1 (by omega)
          (by omega) hm2
          (by
            intro i hi
            rw [w2]
            have := hok (i + 1) (by omega)
            have e : s.bus.calls + (i + 1) = W.2.bus.calls + i := by omega
            rw [← e]; exact this)
          (by
            intro hj
            rw [w2]
            have e1 : a + (bw + len) = a + bw + len := by omega
            have e2 : n - (bw + len) = n - bw - len := by omega
            rw [e1, e2] at hj
            have := hbad (by simpa using hj)
            have e : s.bus.calls + (j + 1) = W.2.bus.calls + j := by omega
            rw [← e]; exact this)
        have e1 : a + (bw + len) = a + bw + len := by omega
        have e2 : n - (bw + len) = n - bw - len := by omega
        rw [e1, e2] at hst htr hwr
        refine ⟨r, hr, ?_, ?_, by rw [hfl, w2], hhd, ?_, ?_⟩
        · rw [hst]; simp
        · rw [htr, t2]
          simp [okWrite, Nat.add_sub_cancel_left, List.append_assoc]
        · intro x hx hout
          rw [hfr x hx (by omega)]
          exact w4 x hx (by omega)
        · intro x h1 h2
          simp only [List.take_succ_cons, totalLen_cons] at h2
          by_cases hx : x < a + bw + len
          · rw [hfr x (by omega) (by omega), t3 x h1 hx, getD_drop_add]
            congr 1; omega
          · exact hwr x (by omega) (by omega)
    · have hbn : bw = n := by omega
      subst hbn
      simp only [segments, Nat.sub_self, if_true, List.length_nil, Nat.le_zero] at hm
      subst hm
      refine ⟨(EEPROM_OK, s), ?_, ?_⟩
      · rw [EEPROM_WriteBuffer_loop]; simp
      · simp [segments, hh, totalLen]
        intro x h1 h2; omega

/-- A block read of a segment inside the device, over the byte store: the store is not
changed, the caller's buffer changes only at the positions of the segment, and when the
transfer is not scheduled to fail those positions receive the bytes of the device. -/
theorem Mem_Read_byteStore (s : Driver ByteStore) (h c off len : Nat) (data : List Nat)
    (hc : c % 256 + len ≤ 256) (hsz : c + len ≤ 2048) (hbuf : off + len ≤ data.length) :
    (HAL_I2C_Mem_Read byteStore s (some h) (EEPROM_GetI2CAddress c) (c % 256) data off
        len).2.2.hi2c_eeprom = s.hi2c_eeprom ∧
    (HAL_I2C_Mem_Read byteStore s (some h) (EEPROM_GetI2CAddress c) (c % 256) data off
        len).2.2.bus.mem = s.bus.mem ∧
    (HAL_I2C_Mem_Read byteStore s (some h) (EEPROM_GetI2CAddress c) (c % 256) data off
        len).2.2.bus.fault = s.bus.fault ∧
    (HAL_I2C_Mem_Read byteStore s (some h) (EEPROM_GetI2CAddress c) (c % 256) data off
        len).2.2.bus.calls = s.bus.calls + 1 ∧
    (HAL_I2C_Mem_Read byteStore s (some h) (EEPROM_GetI2CAddress c) (c % 256) data off
        len).2.1.length = data.length ∧
    (∀ i, ¬ (off ≤ i ∧ i < off + len) →
      (HAL_I2C_Mem_Read byteStore s (some h) (EEPROM_GetI2CAddress c) (c % 256) data off
        len).2.1.getD i 0 = data.getD i 0) ∧
    (s.bus.fault s.bus.calls = none →
      (HAL_I2C_Mem_Read byteStore s (some h) (EEPROM_GetI2CAddress c) (c % 256) data off
        len).1 = true ∧
      (HAL_I2C_Mem_Read byteStore s (some h) (EEPROM_GetI2CAddress c) (c % 256) data off
        len).2.2.trace = s.trace ++
          [Event.memRead (some h) (EEPROM_GetI2CAddress c) (c % 256) off len true] ∧
      ∀ i, off ≤ i → i < off + len →
        (HAL_I2C_Mem_Read byteStore s (some h) (EEPROM_GetI2CAddress c) (c % 256) data off
          len).2.1.getD i 0 = linear s.bus (c + (i - off))) ∧
    (s.bus.fault s.bus.calls ≠ none →
      (HAL_I2C_Mem_Read byteStore s (some h) (EEPROM_GetI2CAddress c) (c % 256) data off
        len).1 = false ∧
      (HAL_I2C_Mem_Read byteStore s (some h) (EEPROM_GetI2CAddress c) (c % 256) data off
        len).2.2.trace = s.trace ++
          [Event.memRead (some h) (EEPROM_GetI2CAddress c) (c % 256) off len false]) := by
  cases hf : s.bus.fault s.bus.calls with
  | none =>
    have hl : ((loadBytes s.bus.mem (EEPROM_GetI2CAddress c) (c % 256) len).take len).length
        = len := by simp [loadBytes_length]
    simp only [HAL_I2C_Mem_Read, byteStore, hf, true_and, ne_eq, not_true_eq_false,
      false_implies, and_true, true_implies]
    refine ⟨?_, ?_, ?_⟩
    · rw [blit_length _ _ _ (by rw [hl]; exact hbuf)]
    · intro i hi
      rw [blit_getD _ _ _ _ (by rw [hl]; exact hbuf), hl]
      simp only [hi, if_false]
    · intro i h1 h2
      have h3 : off ≤ i ∧ i < off + len := ⟨h1, h2⟩
      rw [blit_getD _ _ _ _ (by rw [hl]; exact hbuf), hl]
      simp only [h3, and_self, if_true]
      rw [getD_take_of_lt _ _ _ (by omega), linear_loadBytes s.bus c len _ hc hsz (by omega)]
  | some j =>
    have hl : ((loadBytes s.bus.mem (EEPROM_GetI2CAddress c) (c % 256) (min j len)).take
        len).length ≤ len := by simp
    simp only [HAL_I2C_Mem_Read, byteStore, hf, true_and, ne_eq, not_false_eq_true,
      true_implies, and_true]
    refine ⟨?_, ?_, fun hcon => Option.noConfusion hcon, fun _ => trivial⟩
    · rw [blit_length _ _ _ (by omega)]
    · intro i hi
      rw [blit_getD _ _ _ _ (by omega)]
      have : ¬ (off ≤ i ∧ i < off + ((loadBytes s.bus.mem (EEPROM_GetI2CAddress c) (c % 256)
          (min j len)).take len).length) := by omega
      simp only [this, if_false]

/-- The read loop over the byte store, on a request inside the device whose first `m`
transfers are not scheduled to fail and whose next transfer, if the plan has one, is:
the loop returns after the first `m` segments of the plan were read and, if there is
one, the next segment was attempted; the store is unchanged, the buffer is unchanged
outside the request and holds the bytes of the device at the first `m` segments. -/
theorem ReadBuffer_loop_byteStore (h a n : Nat) (hs : a + n ≤ 2048) :
    ∀ (fuel br m : Nat) (data : List Nat) (s : Driver ByteStore),
    s.hi2c_eeprom = some h → br ≤ n → n - br ≤ fuel → n ≤ data.length →
    m ≤ (segments 256 fuel (a + br) (n - br)).length →
    (∀ i, i < m → s.bus.fault (s.bus.calls + i) = none) →
    (m < (segments 256 fuel (a + br) (n - br)).length →
      s.bus.fault (s.bus.calls + m) ≠ none) →
    ∃ r, EEPROM_ReadBuffer_loop byteStore a n fuel br data s = some r ∧
      r.1 = (if m = (segments 256 fuel (a + br) (n - br)).length then EEPROM_OK
             else EEPROM_ERROR) ∧
      r.2.2.trace = s.trace ++
        ((segments 256 fuel (a + br) (n - br)).take m).map (readEvent (some h) a true) ++
        (((segments 256 fuel (a + br) (n - br)).drop m).take 1).map
          (readEvent (some h) a false) ∧
      r.2.2.bus.mem = s.bus.mem ∧
      r.2.2.bus.fault = s.bus.fault ∧
      r.2.2.hi2c_eeprom = some h ∧
      r.2.1.length = data.length ∧
      (∀ i, (i < br ∨ n ≤ i) → r.2.1.getD i 0 = data.getD i 0) ∧
      (∀ i, br ≤ i → i < br + totalLen ((segments 256 fuel (a + br) (n - br)).take m) →
        r.2.1.getD i 0 = linear s.bus (a + i)) := by
  intro fuel
  induction fuel with
  | zero =>
    intro br m data s hh hbr hf _ hm _ _
    have hnlt : ¬ br < n := by omega
    simp only [segments, List.length_nil, Nat.le_zero] at hm
    subst hm
    refine ⟨(EEPROM_OK, data, s), by simp [EEPROM_ReadBuffer_loop, hnlt], ?_⟩
    simp [segments, hh, totalLen]
    intro i h1 h2; omega
  | succ k ih =>
    intro br m data s hh hbr hf hd hm hok hbad
    by_cases hlt : br < n
    · have hne : ¬ (n - br = 0) := by omega
      have hlen1 : 1 ≤ min (256 - (a + br) % 256) (n - br) := by omega
      have hpg : (a + br) % 256 + min (256 - (a + br) % 256) (n - br) ≤ 256 := by omega
      have hsz : a + br + min (256 - (a + br) % 256) (n - br) ≤ 2048 := by omega
      have hle : min (256 - (a + br) % 256) (n - br) ≤ n - br := by omega
      rw [ReadBuffer_loop_step byteStore s a n data k br hs hlt, hh]
      simp only [segments, hne, if_false] at hm hbad ⊢
      generalize hlen : min (256 - (a + br) % 256) (n - br) = len at *
      obtain ⟨w1, wm, w2, w3, wl, w4, w5, w6⟩ :=
        Mem_Read_byteStore s h (a + br) br len data hpg hsz (by omega)
      generalize HAL_I2C_Mem_Read byteStore s (some h) (EEPROM_GetI2CAddress (a + br))
        ((a + br) % 256) data br len = W at *
      have hlin : ∀ x, linear W.2.2.bus x = linear s.bus x := by
        intro x; unfold linear; rw [wm]
      cases m with
      | zero =>
        obtain ⟨t1, t2⟩ := w6 (hbad (by simp))
        refine ⟨(EEPROM_ERROR, W.2.1, W.2.2), by simp [t1], by simp, ?_, wm, w2,
          by rw [w1, hh], wl, ?_, ?_⟩
        · simp [t2, readEvent, inblock_eq]
        · intro i hout
          exact w4 i (by omega)
        · intro i h1 h2
          simp [totalLen] at h2
          omega
      | succ j =>
        obtain ⟨t1, t2, t3⟩ := w5 (hok 0 (by omega))
        simp only [t1, ne_eq, not_true_eq_false, if_false]
        have e1 : a + (br + len) = a + br + len := by omega
        have e2 : n - (br + len) = n - br - len := by omega
        have hm2 : j ≤ (segments 256 k (a + (br + len)) (n - (br + len))).length := by
          rw [e1, e2]; simpa using hm
        obtain ⟨r, hr, hst, htr, hmem, hfl, hhd, hln, hfr, hwr⟩ := ih (br + len) j W.2.1 W.2.2
          (by rw [w1, hh]) (by omega) (by omega) (by omega) hm2
          (by
            intro i hi
            rw [w2]
            have := hok (i + 1) (by omega)
            have e : s.bus.calls + (i + 1) = W.2.2.bus.calls + i := by omega
            rw [← e]; exact this)
          (by
            intro hj
            rw [w2]
            rw [e1, e2] at hj
            have := hbad (by simpa using hj)
            have e : s.bus.calls + (j + 1) = W.2.2.bus.calls + j := by omega
            rw [← e]; exact this)
        rw [e1, e2] at hst htr hwr
        refine ⟨r, hr, ?_, ?_, by rw [hmem, wm], by rw [hfl, w2], hhd, by rw [hln, wl],
          ?_, ?_⟩
        · rw [hst]; simp
        · rw [htr, t2]
          simp [readEvent, inblock_eq, List.append_assoc]
        · intro i hout
          rw [hfr i (by omega)]
          exact w4 i (by omega)
        · intro i h1 h2
          simp only [List.take_succ_cons, totalLen_cons] at h2
          by_cases hi : i < br + len
          · rw [hfr i (by omega), t3 i h1 hi]
            congr 1; omega
          · rw [hwr i (by omega) (by omega), hlin]
    · have hbn : br = n := by omega
      subst hbn
      simp only [segments, Nat.sub_self, if_true, List.length_nil, Nat.le_zero] at hm
      subst hm
      refine ⟨(EEPROM_OK, data, s), ?_, ?_⟩
      · rw [EEPROM_ReadBuffer_loop]; simp
      · simp [segments, hh, totalLen]
        intro i h1 h2; omega

/-! ## Round trip and fail-fast -/

theorem list_eq_of_getD (l1 l2 : List Nat) (hlen : l1.length = l2.length)
    (h : ∀ i, i < l1.length → l1.getD i 0 = l2.getD i 0) : l1 = l2 := by
  apply List.ext_getElem hlen
  intro i h1 h2
  have := h i h1
  rw [List.getD_eq_getElem _ _ h1, List.getD_eq_getElem _ _ h2] at this
  exact this

theorem drop_take_one (l : List (Nat × Nat)) (k : Nat) (hk : k < l.length) :
    (l.drop k).take 1 = [l.getD k (0, 0)] := by
  induction l generalizing k with
  | nil => simp at hk
  | cons x xs ih =>
    cases k with
    | zero => simp
    | succ j =>
      simp only [List.length_cons, Nat.add_lt_add_iff_right] at hk
      simpa using ih j hk

/-- C1: over the byte store with no failing transfer and an initialised handle, for a
request with `a + n ≤ 2048` and a buffer `B` of `n` bytes, `EEPROM_WriteBuffer a B n`
followed by `EEPROM_ReadBuffer a B' n` leaves the first `n` bytes of `B'` equal to `B`
and the rest of `B'` as it was; for `n ≥ 1` both calls return `EEPROM_OK`. -/
theorem C1_write_read_roundtrip (fuel : Nat) (s : Driver ByteStore) (h a n : Nat)
    (B B' : List Nat) (hh : s.hi2c_eeprom = some h) (hN : NoFault s.bus)
    (hB : B.length = n) (hB' : n ≤ B'.length) (hs : a + n ≤ EEPROM_TOTAL_SIZE)
    (hf : n ≤ fuel) :
    ∃ r1 r2 out, EEPROM_WriteBuffer byteStore fuel s a (some B) n = some r1 ∧
      EEPROM_ReadBuffer byteStore fuel r1.2 a (some B') n = some r2 ∧
      r2.2.1 = some out ∧ out.take n = B ∧ out.drop n = B'.drop n ∧
      (1 ≤ n → r1.1 = EEPROM_OK ∧ r2.1 = EEPROM_OK) := by
  unfold EEPROM_TOTAL_SIZE at hs
  by_cases h0 : n = 0
  · subst h0
    have hnil : B = [] := List.length_eq_zero.mp hB
    refine ⟨(EEPROM_ERROR, s), (EEPROM_ERROR, some B', s), B', ?_, ?_, rfl, ?_, rfl, ?_⟩
    · simp [EEPROM_WriteBuffer]
    · simp [EEPROM_ReadBuffer]
    · simp [hnil]
    · intro hcon; omega
  · have h1 : 1 ≤ n := by omega
    obtain ⟨r1, hr1, hst1, _, hfl1, hhd1, _, hwr1⟩ :=
      WriteBuffer_loop_byteStore h a n B hs (by omega) fuel 0
        (segments 16 fuel (a + 0) (n - 0)).length s hh (by omega) (by omega) (le_refl _)
        (fun i _ => hN _) (fun hcon => absurd hcon (lt_irrefl _))
    have hN1 : NoFault r1.2.bus := by intro k; rw [hfl1]; exact hN k
    obtain ⟨r2, hr2, hst2, _, _, _, _, hln2, hfr2, hrd2⟩ :=
      ReadBuffer_loop_byteStore h a n hs fuel 0
        (segments 256 fuel (a + 0) (n - 0)).length B' r1.2 hhd1 (by omega) (by omega) hB'
        (le_refl _) (fun i _ => hN1 _) (fun hcon => absurd hcon (lt_irrefl _))
    simp only [List.take_length, Nat.add_zero, Nat.sub_zero, Nat.zero_add,
      segments_total 16 (by norm_num) fuel a n hf,
      segments_total 256 (by norm_num) fuel a n hf, if_true] at hst1 hwr1 hst2 hrd2
    refine ⟨r1, (r2.1, some r2.2.1, r2.2.2), r2.2.1, ?_, ?_, rfl, ?_, ?_, fun _ => ⟨hst1, hst2⟩⟩
    · rw [WriteBuffer_eq_loop byteStore fuel s h a n B hh h1 hs]; exact hr1
    · rw [ReadBuffer_eq_loop byteStore fuel r1.2 h a n B' hhd1 h1 hs, hr2]; rfl
    · apply list_eq_of_getD
      · simp [hB]; omega
      · intro i hi
        have hin : i < n := by simp at hi; omega
        rw [getD_take_of_lt _ _ _ hin, hrd2 i (Nat.zero_le i) hin,
          hwr1 (a + i) (by omega) (by omega)]
        congr 1; omega
    · apply list_eq_of_getD
      · simp [hln2]
      · intro i _
        rw [getD_drop_add, getD_drop_add]
        exact hfr2 (n + i) (Or.inr (by omega))

theorem C1_write_read_roundtrip_witness :
    (freshDriver (some 1) blankStore).hi2c_eeprom = some 1 ∧
    NoFault (freshDriver (some 1) blankStore).bus ∧
    [1, 2, 3, 4, 5, 6].length = 6 ∧ 6 ≤ [0, 0, 0, 0, 0, 0, 9].length ∧
    254 + 6 ≤ EEPROM_TOTAL_SIZE ∧ 6 ≤ 6 ∧
    ∃ r1 r2 out,
      EEPROM_WriteBuffer byteStore 6 (freshDriver (some 1) blankStore) 254
        (some [1, 2, 3, 4, 5, 6]) 6 = some r1 ∧
      EEPROM_ReadBuffer byteStore 6 r1.2 254 (some [0, 0, 0, 0, 0, 0, 9]) 6 = some r2 ∧
      r2.2.1 = some out ∧ out.take 6 = [1, 2, 3, 4, 5, 6] ∧
      out.drop 6 = [0, 0, 0, 0, 0, 0, 9].drop 6 ∧
      (1 ≤ 6 → r1.1 = EEPROM_OK ∧ r2.1 = EEPROM_OK) :=
  ⟨rfl, blankStore_noFault, rfl, by decide, by decide, by decide,
    C1_write_read_roundtrip 6 (freshDriver (some 1) blankStore) 1 254 6 [1, 2, 3, 4, 5, 6]
      [0, 0, 0, 0, 0, 0, 9] rfl blankStore_noFault rfl (by decide) (by decide) (by decide)⟩

/-- C10: over the byte store, for a request with an initialised handle, a non-null
buffer, `n ≥ 1` and `a + n ≤ 2048`, when the first `j` transfers succeed and transfer
`j + 1` is the first one the transport fails, and the plan of the operation has more
than `j` pieces, the operation returns `EEPROM_ERROR` and what it logs is exactly: the
first `j` transfers of the plan, each successful (for a write, each followed by the
write delay), then the failing transfer of piece `j + 1`, and nothing else.  After a
failed `EEPROM_WriteBuffer` the bytes of the `j` chunks written before the failure hold
the data. -/
theorem C10_fail_fast (fuel : Nat) (s : Driver ByteStore) (h a n j : Nat) (buf : List Nat)
    (hh : s.hi2c_eeprom = some h) (h1 : 1 ≤ n) (hs : a + n ≤ 2048) (hf : n ≤ fuel)
    (hbuf : n ≤ buf.length)
    (hfirst : ∀ i, i < j → s.bus.fault (s.bus.calls + i) = none)
    (hfail : s.bus.fault (s.bus.calls + j) ≠ none) :
    (j < (writeChunks a n).length →
      ∃ r, EEPROM_WriteBuffer byteStore fuel s a (some buf) n = some r ∧
        r.1 = EEPROM_ERROR ∧
        r.2.trace = s.trace ++ ((writeChunks a n).take j).flatMap (okWrite (some h) buf a) ++
          badWrite (some h) buf a ((writeChunks a n).getD j (0, 0)) ∧
        ∀ i, i < totalLen ((writeChunks a n).take j) → linear r.2.bus (a + i) = buf.getD i 0) ∧
    (j < (readSegments a n).length →
      ∃ r, EEPROM_ReadBuffer byteStore fuel s a (some buf) n = some r ∧
        r.1 = EEPROM_ERROR ∧
        r.2.2.trace = s.trace ++ ((readSegments a n).take j).map (readEvent (some h) a true) ++
          [readEvent (some h) a false ((readSegments a n).getD j (0, 0))]) := by
  have hw : segments 16 fuel (a + 0) (n - 0) = writeChunks a n :=
    segments_fuel 16 (by norm_num) fuel n a n hf (le_refl n)
  have hr : segments 256 fuel (a + 0) (n - 0) = readSegments a n :=
    segments_fuel 256 (by norm_num) fuel n a n hf (le_refl n)
  constructor
  · intro hj
    obtain ⟨r, hr1, hst, htr, _, _, _, hwr⟩ :=
      WriteBuffer_loop_byteStore h a n buf hs hbuf fuel 0 j s hh (by omega) (by omega)
        (by rw [hw]; omega) hfirst (fun _ => hfail)
    rw [hw] at hst htr hwr
    refine ⟨r, ?_, ?_, ?_, ?_⟩
    · rw [WriteBuffer_eq_loop byteStore fuel s h a n buf hh h1 hs]; exact hr1
    · rw [hst]; simp only [Nat.ne_of_lt hj, if_false]
    · rw [htr, drop_take_one _ _ hj]; simp
    · intro i hi
      rw [hwr (a + i) (by omega) (by omega)]
      congr 1; omega
  · intro hj
    obtain ⟨r, hr1, hst, htr, _⟩ :=
      ReadBuffer_loop_byteStore h a n hs fuel 0 j buf s hh (by omega) (by omega) hbuf
        (by rw [hr]; omega) hfirst (fun _ => hfail)
    rw [hr] at hst htr
    refine ⟨(r.1, some r.2.1, r.2.2), ?_, ?_, ?_⟩
    · rw [ReadBuffer_eq_loop byteStore fuel s h a n buf hh h1 hs, hr1]; rfl
    · show r.1 = EEPROM_ERROR
      rw [hst]; simp only [Nat.ne_of_lt hj, if_false]
    · show r.2.2.trace = _
      rw [htr, drop_take_one _ _ hj]; simp

theorem C10_fail_fast_witness :
    (freshDriver (some 1) (faultyStore 1 0)).hi2c_eeprom = some 1 ∧ 1 ≤ 6 ∧
    254 + 6 ≤ 2048 ∧ 6 ≤ 6 ∧ 6 ≤ [1, 2, 3, 4, 5, 6].length ∧
    (∀ i, i < 1 → (freshDriver (some 1) (faultyStore 1 0)).bus.fault
        ((freshDriver (some 1) (faultyStore 1 0)).bus.calls + i) = none) ∧
    (freshDriver (some 1) (faultyStore 1 0)).bus.fault
        ((freshDriver (some 1) (faultyStore 1 0)).bus.calls + 1) ≠ none ∧
    ((1 < (writeChunks 254 6).length →
      ∃ r, EEPROM_WriteBuffer byteStore 6 (freshDriver (some 1) (faultyStore 1 0)) 254
          (some [1, 2, 3, 4, 5, 6]) 6 = some r ∧
        r.1 = EEPROM_ERROR ∧
        r.2.trace = (freshDriver (some 1) (faultyStore 1 0)).trace ++
          ((writeChunks 254 6).take 1).flatMap (okWrite (some 1) [1, 2, 3, 4, 5, 6] 254) ++
          badWrite (some 1) [1, 2, 3, 4, 5, 6] 254 ((writeChunks 254 6).getD 1 (0, 0)) ∧
        ∀ i, i < totalLen ((writeChunks 254 6).take 1) →
          linear r.2.bus (254 + i) = [1, 2, 3, 4, 5, 6].getD i 0) ∧
    (1 < (readSegments 254 6).length →
      ∃ r, EEPROM_ReadBuffer byteStore 6 (freshDriver (some 1) (faultyStore 1 0)) 254
          (some [1, 2, 3, 4, 5, 6]) 6 = some r ∧
        r.1 = EEPROM_ERROR ∧
        r.2.2.trace = (freshDriver (some 1) (faultyStore 1 0)).trace ++
          ((readSegments 254 6).take 1).map (readEvent (some 1) 254 true) ++
          [readEvent (some 1) 254 false ((readSegments 254 6).getD 1 (0, 0))])) :=
  ⟨rfl, by decide, by decide, by decide, by decide, by decide, by decide,
    C10_fail_fast 6 (freshDriver (some 1) (faultyStore 1 0)) 1 254 6 1 [1, 2, 3, 4, 5, 6]
      rfl (by decide) (by decide) (by decide) (by decide) (by decide) (by decide)⟩

/-! ## Zero-length requests, initialisation, region fill -/

/-- C20: a request of length 0 is an error and not a no-op: for every address, every
buffer argument and every handle (an initialised one included), `EEPROM_ReadBuffer`,
`EEPROM_WriteBuffer` and `EEPROM_WritePage` return `EEPROM_ERROR`; the buffered calls
leave the whole state as it was, and the page write leaves the log of transport calls,
the transport state and the handle as they were. -/
theorem C20_zero_length_is_error (T : Transport σ) (fuel : Nat) (s : Driver σ) (a : Nat)
    (data : Option (List Nat)) :
    EEPROM_ReadBuffer T fuel s a data 0 = some (EEPROM_ERROR, data, s) ∧
    EEPROM_WriteBuffer T fuel s a data 0 = some (EEPROM_ERROR, s) ∧
    (EEPROM_WritePage T s a data 0).1 = EEPROM_ERROR ∧
    (EEPROM_WritePage T s a data 0).2.trace = s.trace ∧
    (EEPROM_WritePage T s a data 0).2.bus = s.bus ∧
    (EEPROM_WritePage T s a data 0).2.hi2c_eeprom = s.hi2c_eeprom := by
  cases data with
  | none => simp [EEPROM_ReadBuffer, EEPROM_WriteBuffer, EEPROM_WritePage]
  | some buf => simp [EEPROM_ReadBuffer, EEPROM_WriteBuffer, EEPROM_WritePage]

/-- C15: `EEPROM_Init` with a null handle returns `EEPROM_ERROR` and leaves the whole
state, the log of transport calls included, as it was; with a non-null handle `h` it
logs exactly one event, a read of 1 byte at device address `0xA0`, memory address `0`,
made on `h`, and it returns `EEPROM_OK` exactly when that read succeeds. -/
theorem C15_Init_probe (T : Transport σ) (s : Driver σ) (h : Nat) :
    EEPROM_Init T s none = (EEPROM_ERROR, s) ∧
    ∃ ok : Bool, ok = (T.memRead s.bus (some h) 0xA0 0 1).1 ∧
      (EEPROM_Init T s (some h)).2.trace = s.trace ++ [Event.memRead (some h) 0xA0 0 0 1 ok] ∧
      ((EEPROM_Init T s (some h)).1 = EEPROM_OK ↔ ok = true) ∧
      ((EEPROM_Init T s (some h)).1 = EEPROM_ERROR ↔ ok = false) := by
  refine ⟨by simp [EEPROM_Init], _, rfl, ?_⟩
  cases hp : (T.memRead s.bus (some h) 0xA0 0 1).1 <;>
    simp [EEPROM_Init, HAL_I2C_Mem_Read, EEPROM_I2C_ADDR, hp]

/-- C12: `EEPROM_Clear` is its reference definition, for every input.  In particular it
returns `EEPROM_ERROR` with the state unchanged (no transport call) when `start > end`,
when `end ≥ 2048` or when the allocation fails, and otherwise it is
`EEPROM_WriteBuffer` of `end - start + 1` copies of `value` at `start`, so that the
status and the log of transport calls are those of that buffered write. -/
theorem C12_Clear_refines (T : Transport σ) (fuel : Nat) (alloc : Bool) (s : Driver σ)
    (start_address end_address value : Nat) :
    EEPROM_Clear T fuel alloc s start_address end_address value =
      Clear_reference T fuel alloc s start_address end_address value ∧
    (start_address > end_address ∨ end_address ≥ 2048 ∨ alloc = false →
      EEPROM_Clear T fuel alloc s start_address end_address value = some (EEPROM_ERROR, s)) ∧
    (start_address ≤ end_address → end_address < 2048 → alloc = true →
      EEPROM_Clear T fuel alloc s start_address end_address value =
        EEPROM_WriteBuffer T fuel s start_address
          (some (List.replicate (end_address - start_address + 1) value))
          (end_address - start_address + 1)) := by
  have key : start_address ≤ end_address → end_address < 2048 →
      wrap16 ((end_address : Int) - (start_address : Int) + 1) =
        end_address - start_address + 1 := by
    intro h1 h2; unfold wrap16; omega
  refine ⟨?_, ?_, ?_⟩
  · unfold EEPROM_Clear Clear_reference EEPROM_TOTAL_SIZE
    by_cases h1 : start_address ≤ end_address
    · by_cases h2 : end_address < 2048
      · have c1 : ¬ (start_address > end_address ∨ end_address ≥ 2048) := by omega
        cases alloc <;> simp [c1, h1, h2, key h1 h2]
      · have c1 : start_address > end_address ∨ end_address ≥ 2048 := by omega
        simp [c1, h2]
    · have c1 : start_address > end_address ∨ end_address ≥ 2048 := by omega
      simp [c1, h1]
  · intro hbad
    unfold EEPROM_Clear EEPROM_TOTAL_SIZE
    by_cases c1 : start_address > end_address ∨ end_address ≥ 2048
    · simp [c1]
    · have ha : alloc = false := by
        rcases hbad with h | h | h
        · exact absurd (Or.inl h) c1
        · exact absurd (Or.inr h) c1
        · exact h
      simp [c1, ha]
  · intro h1 h2 ha
    have c1 : ¬ (start_address > end_address ∨ end_address ≥ 2048) := by omega
    unfold EEPROM_Clear EEPROM_TOTAL_SIZE
    simp [c1, ha, key h1 h2]

theorem C12_Clear_refines_witness :
    EEPROM_Clear byteStore 6 true (freshDriver (some 1) blankStore) 14 19 0 =
      Clear_reference byteStore 6 true (freshDriver (some 1) blankStore) 14 19 0 ∧
    (14 > 19 ∨ 19 ≥ 2048 ∨ true = false →
      EEPROM_Clear byteStore 6 true (freshDriver (some 1) blankStore) 14 19 0 =
        some (EEPROM_ERROR, freshDriver (some 1) blankStore)) ∧
    (14 ≤ 19 → 19 < 2048 → true = true →
      EEPROM_Clear byteStore 6 true (freshDriver (some 1) blankStore) 14 19 0 =
        EEPROM_WriteBuffer byteStore 6 (freshDriver (some 1) blankStore) 14
          (some (List.replicate (19 - 14 + 1) 0)) (19 - 14 + 1)) :=
  C12_Clear_refines byteStore 6 true (freshDriver (some 1) blankStore) 14 19 0

/-! ## Read-back over the byte store -/

/-- C13: over the byte store with an initialised handle and no failing transfer, for
every linear address `a < 2048` and every value `v`, `EEPROM_WriteByte a v` returns
`EEPROM_OK` and a following `EEPROM_ReadByte a` into a non-null destination returns
`EEPROM_OK` and leaves `v` in the destination. -/
theorem C13_byte_read_back (s : Driver ByteStore) (h a v d : Nat)
    (hh : s.hi2c_eeprom = some h) (hN : NoFault s.bus) (ha : a < EEPROM_TOTAL_SIZE) :
    (EEPROM_WriteByte byteStore s a v).1 = EEPROM_OK ∧
    (EEPROM_ReadByte byteStore (EEPROM_WriteByte byteStore s a v).2 a (some d)).1 =
      EEPROM_OK ∧
    (EEPROM_ReadByte byteStore (EEPROM_WriteByte byteStore s a v).2 a (some d)).2.1 =
      some v := by
  unfold EEPROM_TOTAL_SIZE at ha
  have c1 : ¬ (a ≥ 2048) := by omega
  have f0 := hN s.bus.calls
  have f1 := hN (s.bus.calls + 1)
  have hm : u8 (EEPROM_GetAddressInBlock a) = a % 256 := by
    rw [inblock_eq]; unfold u8; omega
  have hst : storeBytes s.bus.mem (EEPROM_GetI2CAddress a) (a % 256) [v]
      (EEPROM_GetI2CAddress a) (a % 256) = v := by
    rw [storeBytes_apply _ _ _ _ _ _ (by simp; omega)]
    simp
  have hr : List.range 1 = [0] := rfl
  simp [EEPROM_WriteByte, EEPROM_ReadByte, HAL_I2C_Mem_Write, HAL_I2C_Mem_Read, HAL_Delay,
    byteStore, hh, c1, f0, f1, hm, EEPROM_TOTAL_SIZE, loadBytes, blit, hr, hst]

theorem C13_byte_read_back_witness :
    (freshDriver (some 1) blankStore).hi2c_eeprom = some 1 ∧
    NoFault (freshDriver (some 1) blankStore).bus ∧ 0x0100 < EEPROM_TOTAL_SIZE ∧
    (EEPROM_WriteByte byteStore (freshDriver (some 1) blankStore) 0x0100 0x55).1 =
      EEPROM_OK ∧
    (EEPROM_ReadByte byteStore
      (EEPROM_WriteByte byteStore (freshDriver (some 1) blankStore) 0x0100 0x55).2 0x0100
      (some 0)).1 = EEPROM_OK ∧
    (EEPROM_ReadByte byteStore
      (EEPROM_WriteByte byteStore (freshDriver (some 1) blankStore) 0x0100 0x55).2 0x0100
      (some 0)).2.1 = some 0x55 :=
  ⟨rfl, blankStore_noFault, by decide,
    C13_byte_read_back (freshDriver (some 1) blankStore) 1 0x0100 0x55 0 rfl
      blankStore_noFault (by decide)⟩

/-- A buffered write of a valid request over the byte store with no failing transfer:
it returns `EEPROM_OK`, the device holds the data at the linear addresses of the
request, and no transfer fails afterwards either. -/
theorem WriteBuffer_byteStore_noFault (fuel : Nat) (s : Driver ByteStore) (h a n : Nat)
    (B : List Nat) (hh : s.hi2c_eeprom = some h) (hN : NoFault s.bus) (h1 : 1 ≤ n)
    (hB : n ≤ B.length) (hs : a + n ≤ 2048) (hf : n ≤ fuel) :
    ∃ r, EEPROM_WriteBuffer byteStore fuel s a (some B) n = some r ∧ r.1 = EEPROM_OK ∧
      r.2.hi2c_eeprom = some h ∧ NoFault r.2.bus ∧
      ∀ i, i < n → linear r.2.bus (a + i) = B.getD i 0 := by
  obtain ⟨r1, hr1, hst1, _, hfl1, hhd1, _, hwr1⟩ :=
    WriteBuffer_loop_byteStore h a n B hs hB fuel 0
      (segments 16 fuel (a + 0) (n - 0)).length s hh (by omega) (by omega) (le_refl _)
      (fun i _ => hN _) (fun hcon => absurd hcon (lt_irrefl _))
  simp only [List.take_length, Nat.add_zero, Nat.sub_zero,
    segments_total 16 (by norm_num) fuel a n hf, if_true] at hst1 hwr1
  refine ⟨r1, ?_, hst1, hhd1, fun k => by rw [hfl1]; exact hN k, ?_⟩
  · rw [WriteBuffer_eq_loop byteStore fuel s h a n B hh h1 hs]; exact hr1
  · intro i hi
    rw [hwr1 (a + i) (by omega) (by omega)]
    congr 1; omega

/-- A buffered read of a valid request over the byte store with no failing transfer:
it returns `EEPROM_OK`, the first `n` bytes of the buffer are the bytes of the device at
the linear addresses of the request, and the rest of the buffer is unchanged. -/
theorem ReadBuffer_byteStore_noFault (fuel : Nat) (s : Driver ByteStore) (h a n : Nat)
    (buf : List Nat) (hh : s.hi2c_eeprom = some h) (hN : NoFault s.bus) (h1 : 1 ≤ n)
    (hB : n ≤ buf.length) (hs : a + n ≤ 2048) (hf : n ≤ fuel) :
    ∃ r out, EEPROM_ReadBuffer byteStore fuel s a (some buf) n = some r ∧
      r.1 = EEPROM_OK ∧ r.2.1 = some out ∧ out.length = buf.length ∧
      (∀ i, i < n → out.getD i 0 = linear s.bus (a + i)) ∧
      (∀ i, n ≤ i → out.getD i 0 = buf.getD i 0) := by
  obtain ⟨r2, hr2, hst2, _, _, _, _, hln2, hfr2, hrd2⟩ :=
    ReadBuffer_loop_byteStore h a n hs fuel 0
      (segments 256 fuel (a + 0) (n - 0)).length buf s hh (by omega) (by omega) hB
      (le_refl _) (fun i _ => hN _) (fun hcon => absurd hcon (lt_irrefl _))
  simp only [List.take_length, Nat.add_zero, Nat.sub_zero, Nat.zero_add,
    segments_total 256 (by norm_num) fuel a n hf, if_true] at hst2 hrd2
  refine ⟨(r2.1, some r2.2.1, r2.2.2), r2.2.1, ?_, hst2, rfl, hln2, ?_, ?_⟩
  · rw [ReadBuffer_eq_loop byteStore fuel s h a n buf hh h1 hs, hr2]; rfl
  · intro i hi; exact hrd2 i (Nat.zero_le i) hi
  · intro i hi; exact hfr2 i (Or.inr hi)

/-- C14: over the byte store with an initialised handle and no failing transfer, for
every request accepted by `EEPROM_WritePage` (`1 ≤ n ≤ 16`, `(a % 16) + n ≤ 16`,
`a < 2048`) and every buffer `B` of `n` bytes, `EEPROM_WritePage a B n` returns
`EEPROM_OK` and a following `EEPROM_ReadBuffer a buf n` returns `EEPROM_OK` with the
first `n` bytes of `buf` equal to `B`, in order. -/
theorem C14_page_read_back (fuel : Nat) (s : Driver ByteStore) (h a n : Nat)
    (B buf : List Nat) (hh : s.hi2c_eeprom = some h) (hN : NoFault s.bus) (h1 : 1 ≤ n)
    (hpage : (a % 16) + n ≤ 16) (ha : a < EEPROM_TOTAL_SIZE) (hB : B.length = n)
    (hbuf : n ≤ buf.length) (hf : n ≤ fuel) :
    (EEPROM_WritePage byteStore s a (some B) n).1 = EEPROM_OK ∧
    ∃ r out, EEPROM_ReadBuffer byteStore fuel (EEPROM_WritePage byteStore s a (some B) n).2 a
        (some buf) n = some r ∧
      r.1 = EEPROM_OK ∧ r.2.1 = some out ∧ out.take n = B := by
  unfold EEPROM_TOTAL_SIZE at ha
  have hs : a + n ≤ 2048 := by omega
  obtain ⟨w1, w2, _, _, w5, _⟩ := WritePage_byteStore s h a n B hh h1 hpage hs (by omega)
  obtain ⟨t1, _, t3⟩ := w5 (hN _)
  have hN1 : NoFault (EEPROM_WritePage byteStore s a (some B) n).2.bus := by
    intro k; rw [w2]; exact hN k
  obtain ⟨r, out, hr, hst, hout, hlen, hrd, _⟩ :=
    ReadBuffer_byteStore_noFault fuel _ h a n buf w1 hN1 h1 hbuf hs hf
  refine ⟨t1, r, out, hr, hst, hout, ?_⟩
  apply list_eq_of_getD
  · simp [hB]; omega
  · intro i hi
    have hin : i < n := by simp at hi; omega
    rw [getD_take_of_lt _ _ _ hin, hrd i hin, t3 (a + i) (by omega) (by omega)]
    congr 1; omega

theorem C14_page_read_back_witness :
    (freshDriver (some 1) blankStore).hi2c_eeprom = some 1 ∧
    NoFault (freshDriver (some 1) blankStore).bus ∧ 1 ≤ 6 ∧ (0x010A % 16) + 6 ≤ 16 ∧
    0x010A < EEPROM_TOTAL_SIZE ∧ [0xAA, 0xBB, 0xCC, 0xDD, 0xEE, 0xFF].length = 6 ∧
    6 ≤ [0, 0, 0, 0, 0, 0].length ∧ 6 ≤ 6 ∧
    ((EEPROM_WritePage byteStore (freshDriver (some 1) blankStore) 0x010A
        (some [0xAA, 0xBB, 0xCC, 0xDD, 0xEE, 0xFF]) 6).1 = EEPROM_OK ∧
    ∃ r out, EEPROM_ReadBuffer byteStore 6
        (EEPROM_WritePage byteStore (freshDriver (some 1) blankStore) 0x010A
          (some [0xAA, 0xBB, 0xCC, 0xDD, 0xEE, 0xFF]) 6).2 0x010A
        (some [0, 0, 0, 0, 0, 0]) 6 = some r ∧
      r.1 = EEPROM_OK ∧ r.2.1 = some out ∧
      out.take 6 = [0xAA, 0xBB, 0xCC, 0xDD, 0xEE, 0xFF]) :=
  ⟨rfl, blankStore_noFault, by decide, by decide, by decide, rfl, by decide, by decide,
    C14_page_read_back 6 (freshDriver (some 1) blankStore) 1 0x010A 6
      [0xAA, 0xBB, 0xCC, 0xDD, 0xEE, 0xFF] [0, 0, 0, 0, 0, 0] rfl blankStore_noFault
      (by decide) (by decide) (by decide) rfl (by decide) (by decide)⟩

/-- A region fill of a valid range with a successful allocation is the buffered write
of the filled buffer. -/
theorem Clear_valid (T : Transport σ) (fuel : Nat) (s : Driver σ) (st en v : Nat)
    (h1 : st ≤ en) (h2 : en < 2048) :
    EEPROM_Clear T fuel true s st en v =
      EEPROM_WriteBuffer T fuel s st (some (List.replicate (en - st + 1) v))
        (en - st + 1) := by
  have key : wrap16 ((en : Int) - (st : Int) + 1) = en - st + 1 := by
    unfold wrap16; omega
  have c1 : ¬ (st > en ∨ en ≥ 2048) := by omega
  unfold EEPROM_Clear EEPROM_TOTAL_SIZE
  simp [c1, key]

/-- C11: over the byte store with an initialised handle, no failing transfer and a
successful allocation, for every `st ≤ en < 2048` and every value `v`,
`EEPROM_Clear st en v` returns `EEPROM_OK` and a following
`EEPROM_ReadBuffer st buf (en - st + 1)` returns `EEPROM_OK` with the first
`en - st + 1` bytes of `buf` all equal to `v`. -/
theorem C11_clear_read_back (fuel : Nat) (s : Driver ByteStore) (h st en v : Nat)
    (buf : List Nat) (hh : s.hi2c_eeprom = some h) (hN : NoFault s.bus) (h1 : st ≤ en)
    (h2 : en < EEPROM_TOTAL_SIZE) (hbuf : en - st + 1 ≤ buf.length)
    (hf : en - st + 1 ≤ fuel) :
    ∃ r1 r2 out, EEPROM_Clear byteStore fuel true s st en v = some r1 ∧
      r1.1 = EEPROM_OK ∧
      EEPROM_ReadBuffer byteStore fuel r1.2 st (some buf) (en - st + 1) = some r2 ∧
      r2.1 = EEPROM_OK ∧ r2.2.1 = some out ∧
      out.take (en - st + 1) = List.replicate (en - st + 1) v := by
  unfold EEPROM_TOTAL_SIZE at h2
  have hs : st + (en - st + 1) ≤ 2048 := by omega
  obtain ⟨r1, hr1, hst1, hhd1, hN1, hwr⟩ :=
    WriteBuffer_byteStore_noFault fuel s h st (en - st + 1) (List.replicate (en - st + 1) v)
      hh hN (by omega) (by simp) hs hf
  obtain ⟨r2, out, hr2, hst2, hout, hlen, hrd, _⟩ :=
    ReadBuffer_byteStore_noFault fuel r1.2 h st (en - st + 1) buf hhd1 hN1 (by omega) hbuf
      hs hf
  refine ⟨r1, r2, out, ?_, hst1, hr2, hst2, hout, ?_⟩
  · rw [Clear_valid byteStore fuel s st en v h1 h2]; exact hr1
  · apply list_eq_of_getD
    · simp; omega
    · intro i hi
      have hin : i < en - st + 1 := by simp at hi; omega
      rw [getD_take_of_lt _ _ _ hin, hrd i hin, hwr i hin]

theorem C11_clear_read_back_witness :
    (freshDriver (some 1) blankStore).hi2c_eeprom = some 1 ∧
    NoFault (freshDriver (some 1) blankStore).bus ∧ 14 ≤ 19 ∧ 19 < EEPROM_TOTAL_SIZE ∧
    19 - 14 + 1 ≤ [1, 2, 3, 4, 5, 6].length ∧ 19 - 14 + 1 ≤ 6 ∧
    ∃ r1 r2 out, EEPROM_Clear byteStore 6 true (freshDriver (some 1) blankStore) 14 19 0 =
        some r1 ∧
      r1.1 = EEPROM_OK ∧
      EEPROM_ReadBuffer byteStore 6 r1.2 14 (some [1, 2, 3, 4, 5, 6]) (19 - 14 + 1) = some r2 ∧
      r2.1 = EEPROM_OK ∧ r2.2.1 = some out ∧
      out.take (19 - 14 + 1) = List.replicate (19 - 14 + 1) 0 :=
  ⟨rfl, blankStore_noFault, by decide, by decide, by decide, by decide,
    C11_clear_read_back 6 (freshDriver (some 1) blankStore) 1 14 19 0 [1, 2, 3, 4, 5, 6]
      rfl blankStore_noFault (by decide) (by decide) (by decide) (by decide)⟩

/-! ## Frame of a buffered write -/

/-- Among the next `L` transfers of a failure schedule there is a first one that fails,
or none of them fails. -/
theorem first_fault (f : Nat → Option Nat) (c : Nat) : ∀ L : Nat,
    ∃ m, m ≤ L ∧ (∀ i, i < m → f (c + i) = none) ∧ (m < L → f (c + m) ≠ none) := by
  intro L
  induction L with
  | zero => exact ⟨0, le_refl 0, fun i hi => absurd hi (Nat.not_lt_zero i),
      fun hcon => absurd hcon (lt_irrefl 0)⟩
  | succ k ih =>
    obtain ⟨m, hm, hok, hbad⟩ := ih
    by_cases hlt : m < k
    · exact ⟨m, by omega, hok, fun _ => hbad hlt⟩
    · have hmk : m = k := by omega
      subst hmk
      by_cases hf : f (c + m) = none
      · refine ⟨m + 1, le_refl _, ?_, fun hcon => absurd hcon (lt_irrefl _)⟩
        intro i hi
        by_cases hi2 : i < m
        · exact hok i hi2
        · have : i = m := by omega
          subst this; exact hf
      · exact ⟨m, by omega, hok, fun _ => hf⟩

/-- C18: over the byte store, whatever transfers are scheduled to fail, for every
request with `a + n ≤ 2048` and a buffer of at least `n` bytes, `EEPROM_WriteBuffer`
returns, with `EEPROM_OK` or with `EEPROM_ERROR`, and every byte of the device whose
linear address lies outside `[a, a + n)` has the value it had before the call. -/
theorem C18_write_frame (fuel : Nat) (s : Driver ByteStore) (a n : Nat) (buf : List Nat)
    (hs : a + n ≤ EEPROM_TOTAL_SIZE) (hbuf : n ≤ buf.length) (hf : n ≤ fuel) :
    ∃ r, EEPROM_WriteBuffer byteStore fuel s a (some buf) n = some r ∧
      (r.1 = EEPROM_OK ∨ r.1 = EEPROM_ERROR) ∧
      ∀ x, x < EEPROM_TOTAL_SIZE → (x < a ∨ a + n ≤ x) →
        linear r.2.bus x = linear s.bus x := by
  unfold EEPROM_TOTAL_SIZE at *
  cases hh : s.hi2c_eeprom with
  | none =>
    exact ⟨(EEPROM_ERROR, s), by simp [EEPROM_WriteBuffer, hh], Or.inr rfl, fun _ _ _ => rfl⟩
  | some h =>
    by_cases h0 : n = 0
    · exact ⟨(EEPROM_ERROR, s), by simp [EEPROM_WriteBuffer, h0], Or.inr rfl,
        fun _ _ _ => rfl⟩
    · obtain ⟨m, hm, hok, hbad⟩ := first_fault s.bus.fault s.bus.calls
        (segments 16 fuel (a + 0) (n - 0)).length
      obtain ⟨r, hr, hst, _, _, _, hfr, _⟩ :=
        WriteBuffer_loop_byteStore h a n buf hs hbuf fuel 0 m s hh (by omega) (by omega)
          hm hok hbad
      refine ⟨r, ?_, ?_, ?_⟩
      · rw [WriteBuffer_eq_loop byteStore fuel s h a n buf hh (by omega) hs]; exact hr
      · rw [hst]; split
        · exact Or.inl rfl
        · exact Or.inr rfl
      · intro x hx hout
        exact hfr x hx (by omega)

theorem C18_write_frame_witness :
    254 + 6 ≤ EEPROM_TOTAL_SIZE ∧ 6 ≤ [1, 2, 3, 4, 5, 6].length ∧ 6 ≤ 6 ∧
    ∃ r, EEPROM_WriteBuffer byteStore 6 (freshDriver (some 1) (faultyStore 1 2)) 254
        (some [1, 2, 3, 4, 5, 6]) 6 = some r ∧
      (r.1 = EEPROM_OK ∨ r.1 = EEPROM_ERROR) ∧
      ∀ x, x < EEPROM_TOTAL_SIZE → (x < 254 ∨ 254 + 6 ≤ x) →
        linear r.2.bus x = linear (freshDriver (some 1) (faultyStore 1 2)).bus x :=
  ⟨by decide, by decide, by decide,
    C18_write_frame 6 (freshDriver (some 1) (faultyStore 1 2)) 254 6 [1, 2, 3, 4, 5, 6]
      (by decide) (by decide) (by decide)⟩

/-! ## The log of a buffered transfer over any transport -/

/-- The write loop on a request inside the device, over any transport: it returns after
some number `m` of chunks of the write plan were written, each followed by the write
delay, and, unless that was the whole plan, the next chunk was attempted and failed;
over a transport that never fails the whole plan is written. -/
theorem WriteBuffer_loop_trace (T : Transport σ) (Inv : σ → Prop) (h a n : Nat)
    (data : List Nat) (hs : a + n ≤ 2048) : ∀ (fuel bw : Nat) (s : Driver σ),
    s.hi2c_eeprom = some h → bw ≤ n → n - bw ≤ fuel →
    ∃ r m, EEPROM_WriteBuffer_loop T a n data fuel bw s = some r ∧
      m ≤ (segments 16 fuel (a + bw) (n - bw)).length ∧
      r.1 = (if m = (segments 16 fuel (a + bw) (n - bw)).length then EEPROM_OK
             else EEPROM_ERROR) ∧
      r.2.trace = s.trace ++
        ((segments 16 fuel (a + bw) (n - bw)).take m).flatMap (okWrite (some h) data a) ++
        (((segments 16 fuel (a + bw) (n - bw)).drop m).take 1).flatMap
          (badWrite (some h) data a) ∧
      r.2.hi2c_eeprom = some h ∧
      (NeverFails T Inv → Inv s.bus →
        m = (segments 16 fuel (a + bw) (n - bw)).length ∧ Inv r.2.bus) := by
  intro fuel
  induction fuel with
  | zero =>
    intro bw s hh hbw hf
    have hnlt : ¬ bw < n := by omega
    refine ⟨(EEPROM_OK, s), 0, by simp [EEPROM_WriteBuffer_loop, hnlt], ?_⟩
    simp [segments, hh]
  | succ k ih =>
    intro bw s hh hbw hf
    by_cases hlt : bw < n
    · have hne : ¬ (n - bw = 0) := by omega
      have hlen1 : 1 ≤ min (16 - (a + bw) % 16) (n - bw) := by omega
      have hpg : (a + bw) % 16 + min (16 - (a + bw) % 16) (n - bw) ≤ 16 := by omega
      have hsz : a + bw + min (16 - (a + bw) % 16) (n - bw) ≤ 2048 := by omega
      rw [WriteBuffer_loop_step T s a n data k bw hs hlt,
        WritePage_valid T s h (a + bw) _ (data.drop bw) hh hlen1 hpg hsz]
      simp only [segments, hne, if_false]
      generalize hlen : min (16 - (a + bw) % 16) (n - bw) = len at *
      have hNF : NeverFails T Inv → Inv s.bus →
          (T.memWrite s.bus (some h) (EEPROM_GetI2CAddress (a + bw)) ((a + bw) % 256) len
            ((data.drop bw).take len)).1 = true ∧
          Inv (T.memWrite s.bus (some h) (EEPROM_GetI2CAddress (a + bw)) ((a + bw) % 256) len
            ((data.drop bw).take len)).2 :=
        fun hT hI => (hT s.bus (some h) _ _ len hI).2 _
      generalize T.memWrite s.bus (some h) (EEPROM_GetI2CAddress (a + bw))
        ((a + bw) % 256) len ((data.drop bw).take len) = w at *
      cases hok : w.1 with
      | false =>
        refine ⟨_, 0, by simp; rfl, by simp, by simp, ?_, rfl, ?_⟩
        · simp [badWrite, inblock_eq, Nat.add_sub_cancel_left]
        · intro hT hI
          have := (hNF hT hI).1
          rw [hok] at this
          cases this
      | true =>
        simp only [if_true, ne_eq, not_true_eq_false, if_false]
        obtain ⟨r, m, hr, hm, hst, htr, hhd, hnf⟩ :=
          ih (bw + len) ⟨some h, w.2,
            s.trace ++ Event.memWrite (some h) (EEPROM_GetI2CAddress (a + bw))
              ((a + bw) % 256) len ((data.drop bw).take len) true :: [Event.delay 5],
            s.pageCalls ++ [(a + bw, len)]⟩ rfl (by omega) (by omega)
        have e1 : a + (bw + len) = a + bw + len := by omega
        have e2 : n - (bw + len) = n - bw - len := by omega
        rw [e1, e2] at hm hst htr hnf
        refine ⟨r, m + 1, hr, by simpa using hm, ?_, ?_, hhd, ?_⟩
        · rw [hst]; simp
        · rw [htr]
          simp [okWrite, inblock_eq, Nat.add_sub_cancel_left, List.append_assoc,
            EEPROM_WRITE_DELAY]
        · intro hT hI
          obtain ⟨q1, q2⟩ := hnf hT (hNF hT hI).2
          exact ⟨by simp [q1], q2⟩
    · have hbn : bw = n := by omega
      subst hbn
      refine ⟨(EEPROM_OK, s), 0, ?_, ?_⟩
      · rw [EEPROM_WriteBuffer_loop]; simp
      · simp [segments, hh]

/-- The read loop on a request inside the device, over any transport: it returns after
some number `m` of segments of the read plan were read and, unless that was the whole
plan, the next segment was attempted and failed. -/
theorem ReadBuffer_loop_trace (T : Transport σ) (h a n : Nat) (hs : a + n ≤ 2048) :
    ∀ (fuel br : Nat) (data : List Nat) (s : Driver σ),
    s.hi2c_eeprom = some h → br ≤ n → n - br ≤ fuel →
    ∃ r m, EEPROM_ReadBuffer_loop T a n fuel br data s = some r ∧
      m ≤ (segments 256 fuel (a + br) (n - br)).length ∧
      r.1 = (if m = (segments 256 fuel (a + br) (n - br)).length then EEPROM_OK
             else EEPROM_ERROR) ∧
      r.2.2.trace = s.trace ++
        ((segments 256 fuel (a + br) (n - br)).take m).map (readEvent (some h) a true) ++
        (((segments 256 fuel (a + br) (n - br)).drop m).take 1).map
          (readEvent (some h) a false) ∧
      r.2.2.hi2c_eeprom = some h := by
  intro fuel
  induction fuel with
  | zero =>
    intro br data s hh hbr hf
    have hnlt : ¬ br < n := by omega
    refine ⟨(EEPROM_OK, data, s), 0, by simp [EEPROM_ReadBuffer_loop, hnlt], ?_⟩
    simp [segments, hh]
  | succ k ih =>
    intro br data s hh hbr hf
    by_cases hlt : br < n
    · have hne : ¬ (n - br = 0) := by omega
      rw [ReadBuffer_loop_step T s a n data k br hs hlt, hh]
      simp only [segments, hne, if_false]
      generalize hlen : min (256 - (a + br) % 256) (n - br) = len at *
      have htrW : (HAL_I2C_Mem_Read T s (some h) (EEPROM_GetI2CAddress (a + br))
          ((a + br) % 256) data br len).2.2.trace = s.trace ++
            [readEvent (some h) a (HAL_I2C_Mem_Read T s (some h)
              (EEPROM_GetI2CAddress (a + br)) ((a + br) % 256) data br len).1
              (a + br, len)] := by
        simp [HAL_I2C_Mem_Read, readEvent, inblock_eq]
      have hhW : (HAL_I2C_Mem_Read T s (some h) (EEPROM_GetI2CAddress (a + br))
          ((a + br) % 256) data br len).2.2.hi2c_eeprom = some h := hh
      generalize HAL_I2C_Mem_Read T s (some h) (EEPROM_GetI2CAddress (a + br))
        ((a + br) % 256) data br len = W at *
      cases hok : W.1 with
      | false =>
        rw [hok] at htrW
        refine ⟨(EEPROM_ERROR, W.2.1, W.2.2), 0, by simp, by simp, by simp, ?_, hhW⟩
        simp [htrW]
      | true =>
        rw [hok] at htrW
        simp only [ne_eq, not_true_eq_false, if_false]
        obtain ⟨r, m, hr, hm, hst, htr, hhd⟩ :=
          ih (br + len) W.2.1 W.2.2 hhW (by omega) (by omega)
        have e1 : a + (br + len) = a + br + len := by omega
        have e2 : n - (br + len) = n - br - len := by omega
        rw [e1, e2] at hm hst htr
        refine ⟨r, m + 1, hr, by simpa using hm, ?_, ?_, hhd⟩
        · rw [hst]; simp
        · rw [htr, htrW]
          simp [List.append_assoc]
    · have hbn : br = n := by omega
      subst hbn
      refine ⟨(EEPROM_OK, data, s), 0, ?_, ?_⟩
      · rw [EEPROM_ReadBuffer_loop]; simp
      · simp [segments, hh]

/-! ## Number of page writes -/

/-- The write plan of a non-empty request has one chunk per page touched. -/
theorem segments_length_pages (fuel : Nat) : ∀ (c rem : Nat), 1 ≤ rem → rem ≤ fuel →
    (segments 16 fuel c rem).length = (c + rem - 1) / 16 - c / 16 + 1 := by
  induction fuel with
  | zero => intro c rem h1 h2; omega
  | succ k ih =>
    intro c rem h1 h2
    have hr : ¬ (rem = 0) := by omega
    simp only [segments, hr, if_false, List.length_cons]
    by_cases hfit : rem ≤ 16 - c % 16
    · have hmin : min (16 - c % 16) rem = rem := by omega
      rw [hmin, Nat.sub_self]
      have h0 : (segments 16 k (c + rem) 0).length = 0 := by
        cases k <;> simp [segments]
      rw [h0]
      omega
    · have hmin : min (16 - c % 16) rem = 16 - c % 16 := by omega
      rw [hmin, ih _ _ (by omega) (by omega)]
      omega

theorem filterMap_writeArgs_okWrite (hi2c : Option Nat) (data : List Nat) (a : Nat)
    (l : List (Nat × Nat)) :
    (l.flatMap (okWrite hi2c data a)).filterMap Event.writeArgs =
      l.map (fun c => (EEPROM_GetI2CAddress c.1, EEPROM_GetAddressInBlock c.1, c.2)) := by
  induction l with
  | nil => rfl
  | cons c rest ih =>
    simp only [List.flatMap_cons, List.filterMap_append, ih, List.map_cons]
    simp [okWrite, Event.writeArgs]

/-- C17: with an initialised handle, a non-null buffer, `n ≥ 1`, `a + n ≤ 2048` and a
transport that never fails, `EEPROM_WriteBuffer` returns `EEPROM_OK` and what it logs is
exactly one accepted write transfer, followed by the write delay, per chunk of the
write plan; the number of write transfers is `(a + n - 1) / 16 - a / 16 + 1`, and the
first one has length `min (16 - a % 16) n`.  For `a = 14`, `n = 6` the plan is the two
chunks `(14, 2)` and `(16, 4)`. -/
theorem C17_page_write_count (T : Transport σ) (Inv : σ → Prop) (fuel : Nat) (s : Driver σ)
    (h a n : Nat) (buf : List Nat) (hh : s.hi2c_eeprom = some h) (h1 : 1 ≤ n)
    (hs : a + n ≤ 2048) (hf : n ≤ fuel) (hT : NeverFails T Inv) (hI : Inv s.bus) :
    ∃ r, EEPROM_WriteBuffer T fuel s a (some buf) n = some r ∧ r.1 = EEPROM_OK ∧
      r.2.trace = s.trace ++ (writeChunks a n).flatMap (okWrite (some h) buf a) ∧
      r.2.trace.filterMap Event.writeArgs = s.trace.filterMap Event.writeArgs ++
        (writeChunks a n).map
          (fun c => (EEPROM_GetI2CAddress c.1, EEPROM_GetAddressInBlock c.1, c.2)) ∧
      (r.2.trace.filterMap Event.writeArgs).length =
        (s.trace.filterMap Event.writeArgs).length + ((a + n - 1) / 16 - a / 16 + 1) ∧
      (writeChunks a n).length = (a + n - 1) / 16 - a / 16 + 1 ∧
      (writeChunks a n).head? = some (a, min (16 - a % 16) n) ∧
      writeChunks 14 6 = [(14, 2), (16, 4)] := by
  obtain ⟨r, m, hr, _, hst, htr, _, hnf⟩ :=
    WriteBuffer_loop_trace T Inv h a n buf hs fuel 0 s hh (by omega) (by omega)
  have hplan : segments 16 fuel (a + 0) (n - 0) = writeChunks a n :=
    segments_fuel 16 (by norm_num) fuel n a n hf (le_refl n)
  rw [hplan] at hst htr hnf
  obtain ⟨hm, _⟩ := hnf hT hI
  subst hm
  simp only [List.take_length, List.drop_length, List.take_nil, List.flatMap_nil,
    List.append_nil, if_true] at hst htr
  have hlen : (writeChunks a n).length = (a + n - 1) / 16 - a / 16 + 1 :=
    segments_length_pages n a n h1 (le_refl n)
  have hfm : r.2.trace.filterMap Event.writeArgs = s.trace.filterMap Event.writeArgs ++
      (writeChunks a n).map
        (fun c => (EEPROM_GetI2CAddress c.1, EEPROM_GetAddressInBlock c.1, c.2)) := by
    rw [htr, List.filterMap_append, filterMap_writeArgs_okWrite]
  refine ⟨r, ?_, hst, htr, hfm, ?_, hlen, ?_, by decide⟩
  · rw [WriteBuffer_eq_loop T fuel s h a n buf hh h1 hs]; exact hr
  · rw [hfm, List.length_append, List.length_map, hlen]
  · unfold writeChunks
    cases n with
    | zero => omega
    | succ k => simp [segments]

theorem C17_page_write_count_witness :
    (freshDriver (some 1) blankStore).hi2c_eeprom = some 1 ∧ 1 ≤ 6 ∧ 14 + 6 ≤ 2048 ∧ 6 ≤ 6 ∧
    NeverFails byteStore NoFault ∧ NoFault (freshDriver (some 1) blankStore).bus ∧
    ∃ r, EEPROM_WriteBuffer byteStore 6 (freshDriver (some 1) blankStore) 14
        (some [1, 2, 3, 4, 5, 6]) 6 = some r ∧ r.1 = EEPROM_OK ∧
      r.2.trace = (freshDriver (some 1) blankStore).trace ++
        (writeChunks 14 6).flatMap (okWrite (some 1) [1, 2, 3, 4, 5, 6] 14) ∧
      r.2.trace.filterMap Event.writeArgs =
        (freshDriver (some 1) blankStore).trace.filterMap Event.writeArgs ++
        (writeChunks 14 6).map
          (fun c => (EEPROM_GetI2CAddress c.1, EEPROM_GetAddressInBlock c.1, c.2)) ∧
      (r.2.trace.filterMap Event.writeArgs).length =
        ((freshDriver (some 1) blankStore).trace.filterMap Event.writeArgs).length +
          ((14 + 6 - 1) / 16 - 14 / 16 + 1) ∧
      (writeChunks 14 6).length = (14 + 6 - 1) / 16 - 14 / 16 + 1 ∧
      (writeChunks 14 6).head? = some (14, min (16 - 14 % 16) 6) ∧
      writeChunks 14 6 = [(14, 2), (16, 4)] :=
  ⟨rfl, by decide, by decide, by decide, byteStore_neverFails, blankStore_noFault,
    C17_page_write_count byteStore NoFault 6 (freshDriver (some 1) blankStore) 1 14 6
      [1, 2, 3, 4, 5, 6] rfl (by decide) (by decide) (by decide) byteStore_neverFails
      blankStore_noFault⟩

/-! ## Settling delay -/

theorem settles_nil (tr : List Event) : Settles tr tr :=
  ⟨[], by simp, rfl, rfl⟩

theorem settles_ok (tr : List Event) (hi2c : Option Nat) (dev mem size : Nat)
    (d : List Nat) :
    Settles tr (tr ++ [Event.memWrite hi2c dev mem size d true, Event.delay 5]) :=
  ⟨_, rfl, by simp [settled, followedByDelay, Event.isOkWrite, EEPROM_WRITE_DELAY],
    by simp [delayTotal, okWriteCount, Event.isOkWrite, EEPROM_WRITE_DELAY]⟩

theorem settles_bad (tr : List Event) (hi2c : Option Nat) (dev mem size : Nat)
    (d : List Nat) :
    Settles tr (tr ++ [Event.memWrite hi2c dev mem size d false]) :=
  ⟨_, rfl, by simp [settled, followedByDelay, Event.isOkWrite],
    by simp [delayTotal, okWriteCount, Event.isOkWrite]⟩

/-- A log made of accepted chunk writes, each with its delay, and then at most one
failed chunk write, respects the settling delay. -/
theorem settled_writeLog (hi2c : Option Nat) (data : List Nat) (a : Nat)
    (X : List (Nat × Nat)) : ∀ l : List (Nat × Nat),
    settled (l.flatMap (okWrite hi2c data a) ++ (X.take 1).flatMap (badWrite hi2c data a))
      = true ∧
    delayTotal (l.flatMap (okWrite hi2c data a) ++ (X.take 1).flatMap (badWrite hi2c data a))
      = EEPROM_WRITE_DELAY * l.length ∧
    okWriteCount (l.flatMap (okWrite hi2c data a) ++
      (X.take 1).flatMap (badWrite hi2c data a)) = l.length := by
  intro l
  induction l with
  | nil =>
    cases X with
    | nil => simp [settled, delayTotal, okWriteCount]
    | cons x xs =>
      simp [settled, delayTotal, okWriteCount, badWrite, followedByDelay, Event.isOkWrite]
  | cons c rest ih =>
    obtain ⟨i1, i2, i3⟩ := ih
    have e : (c :: rest).flatMap (okWrite hi2c data a) ++
        (X.take 1).flatMap (badWrite hi2c data a) =
        Event.memWrite hi2c (EEPROM_GetI2CAddress c.1) (EEPROM_GetAddressInBlock c.1) c.2
          ((data.drop (c.1 - a)).take c.2) true :: Event.delay EEPROM_WRITE_DELAY ::
          (rest.flatMap (okWrite hi2c data a) ++
            (X.take 1).flatMap (badWrite hi2c data a)) := by
      simp [okWrite]
    rw [e]
    generalize rest.flatMap (okWrite hi2c data a) ++
      (X.take 1).flatMap (badWrite hi2c data a) = tl at *
    simp only [settled, delayTotal, okWriteCount, List.head?_cons, followedByDelay,
      Event.isOkWrite, i1, i2, i3, List.length_cons]
    simp [EEPROM_WRITE_DELAY]
    omega

/-- The events logged by a buffered write, whatever its arguments and whatever the
transport does, respect the settling delay. -/
theorem WriteBuffer_settles (T : Transport σ) (fuel : Nat) (s : Driver σ) (a n : Nat)
    (data : Option (List Nat)) (hf : n ≤ fuel) :
    ∃ r, EEPROM_WriteBuffer T fuel s a data n = some r ∧ Settles s.trace r.2.trace := by
  cases data with
  | none => exact ⟨(EEPROM_ERROR, s), by simp [EEPROM_WriteBuffer], settles_nil _⟩
  | some buf =>
    cases hh : s.hi2c_eeprom with
    | none => exact ⟨(EEPROM_ERROR, s), by simp [EEPROM_WriteBuffer, hh], settles_nil _⟩
    | some h =>
      by_cases h0 : n = 0
      · exact ⟨(EEPROM_ERROR, s), by simp [EEPROM_WriteBuffer, h0], settles_nil _⟩
      · by_cases hs : a + n ≤ 2048
        · obtain ⟨r, m, hr, hm, _, htr, _, _⟩ :=
            WriteBuffer_loop_trace T (fun _ => True) h a n buf hs fuel 0 s hh (by omega)
              (by omega)
          refine ⟨r, ?_, ?_⟩
          · rw [WriteBuffer_eq_loop T fuel s h a n buf hh (by omega) hs]; exact hr
          · obtain ⟨q1, q2, q3⟩ := settled_writeLog (some h) buf a
              ((segments 16 fuel (a + 0) (n - 0)).drop m)
              ((segments 16 fuel (a + 0) (n - 0)).take m)
            refine ⟨_, ?_, q1, ?_⟩
            · rw [htr, List.append_assoc]
            · rw [q2, q3]
        · have c2 : a + n > 2048 := by omega
          exact ⟨(EEPROM_ERROR, s),
            by simp [EEPROM_WriteBuffer, hh, h0, c2, EEPROM_TOTAL_SIZE], settles_nil _⟩

/-- The events logged by a page write, whatever its arguments and whatever the
transport does, respect the settling delay. -/
theorem WritePage_settles (T : Transport σ) (s : Driver σ) (a n : Nat)
    (data : Option (List Nat)) :
    Settles s.trace (EEPROM_WritePage T s a data n).2.trace := by
  cases data with
  | none => simpa [EEPROM_WritePage] using settles_nil s.trace
  | some buf =>
    unfold EEPROM_WritePage
    by_cases c1 : s.hi2c_eeprom = none ∨ n = 0 ∨ n > EEPROM_PAGE_SIZE
    · simpa [c1] using settles_nil s.trace
    · by_cases c2 : a ≥ EEPROM_TOTAL_SIZE ∨ (a % EEPROM_PAGE_SIZE) + n > EEPROM_PAGE_SIZE
      · simpa [c1, c2] using settles_nil s.trace
      · simp only [c1, c2, if_false, HAL_I2C_Mem_Write, HAL_Delay, EEPROM_WRITE_DELAY]
        cases hw : (T.memWrite s.bus s.hi2c_eeprom (EEPROM_GetI2CAddress a)
            (u8 (EEPROM_GetAddressInBlock a)) n (buf.take n)).1 with
        | false => simpa using settles_bad s.trace _ _ _ _ _
        | true => simpa using settles_ok s.trace _ _ _ _ _

/-- The events logged by a byte write, whatever its arguments and whatever the
transport does, respect the settling delay. -/
theorem WriteByte_settles (T : Transport σ) (s : Driver σ) (a v : Nat) :
    Settles s.trace (EEPROM_WriteByte T s a v).2.trace := by
  unfold EEPROM_WriteByte
  by_cases c1 : s.hi2c_eeprom = none ∨ a ≥ EEPROM_TOTAL_SIZE
  · simpa [c1] using settles_nil s.trace
  · simp only [c1, if_false, HAL_I2C_Mem_Write, HAL_Delay, EEPROM_WRITE_DELAY]
    cases hw : (T.memWrite s.bus s.hi2c_eeprom (EEPROM_GetI2CAddress a)
        (u8 (EEPROM_GetAddressInBlock a)) 1 ([v].take 1)).1 with
    | false => simpa using settles_bad s.trace _ _ _ _ _
    | true => simpa using settles_ok s.trace _ _ _ _ _

/-- C16: in the events that `EEPROM_WriteByte`, `EEPROM_WritePage`, `EEPROM_WriteBuffer`
and `EEPROM_Clear` add to the log of transport calls and delays, for every argument and
every transport, each accepted write transfer is immediately followed by a delay of
`EEPROM_WRITE_DELAY`, also when it is the last transfer before the return, and the
delays add up to `EEPROM_WRITE_DELAY` times the number of accepted write transfers. -/
theorem C16_settling_delay (T : Transport σ) (fuel : Nat) (alloc : Bool) (s : Driver σ)
    (a v n st en : Nat) (data : Option (List Nat)) (hf : n ≤ fuel)
    (hfc : en - st + 1 ≤ fuel) :
    Settles s.trace (EEPROM_WriteByte T s a v).2.trace ∧
    Settles s.trace (EEPROM_WritePage T s a data n).2.trace ∧
    (∃ r, EEPROM_WriteBuffer T fuel s a data n = some r ∧ Settles s.trace r.2.trace) ∧
    (∃ r, EEPROM_Clear T fuel alloc s st en v = some r ∧ Settles s.trace r.2.trace) := by
  refine ⟨WriteByte_settles T s a v, WritePage_settles T s a n data,
    WriteBuffer_settles T fuel s a n data hf, ?_⟩
  by_cases c1 : st > en ∨ en ≥ 2048
  · exact ⟨(EEPROM_ERROR, s), by simp [EEPROM_Clear, c1, EEPROM_TOTAL_SIZE], settles_nil _⟩
  · cases alloc with
    | false =>
      exact ⟨(EEPROM_ERROR, s), by simp [EEPROM_Clear, c1, EEPROM_TOTAL_SIZE], settles_nil _⟩
    | true =>
      rw [Clear_valid T fuel s st en v (by omega) (by omega)]
      exact WriteBuffer_settles T fuel s st (en - st + 1) _ hfc

theorem C16_settling_delay_witness :
    6 ≤ 6 ∧ 19 - 14 + 1 ≤ 6 ∧
    Settles (freshDriver (some 1) blankStore).trace
      (EEPROM_WriteByte byteStore (freshDriver (some 1) blankStore) 14 85).2.trace ∧
    Settles (freshDriver (some 1) blankStore).trace
      (EEPROM_WritePage byteStore (freshDriver (some 1) blankStore) 14
        (some [1, 2, 3, 4, 5, 6]) 6).2.trace ∧
    (∃ r, EEPROM_WriteBuffer byteStore 6 (freshDriver (some 1) blankStore) 14
        (some [1, 2, 3, 4, 5, 6]) 6 = some r ∧
      Settles (freshDriver (some 1) blankStore).trace r.2.trace) ∧
    (∃ r, EEPROM_Clear byteStore 6 true (freshDriver (some 1) blankStore) 14 19 85 = some r ∧
      Settles (freshDriver (some 1) blankStore).trace r.2.trace) :=
  ⟨by decide, by decide,
    C16_settling_delay byteStore 6 true (freshDriver (some 1) blankStore) 14 85 6 14 19
      (some [1, 2, 3, 4, 5, 6]) (by decide) (by decide)⟩

/-! ## The handle stored by a failed initialisation -/

theorem starts_writeLog (tr : List Event) (h : Nat) (data : List Nat) (a : Nat)
    (c : Nat × Nat) (P : List (Nat × Nat)) (m : Nat) :
    StartsOnHandle (some h) tr
      (tr ++ ((c :: P).take m).flatMap (okWrite (some h) data a) ++
        (((c :: P).drop m).take 1).flatMap (badWrite (some h) data a)) := by
  cases m with
  | zero =>
    exact ⟨Event.memWrite (some h) (EEPROM_GetI2CAddress c.1) (EEPROM_GetAddressInBlock c.1)
      c.2 ((data.drop (c.1 - a)).take c.2) false, [], by simp [badWrite],
      by simp [Event.onHandle]⟩
  | succ j =>
    exact ⟨Event.memWrite (some h) (EEPROM_GetI2CAddress c.1) (EEPROM_GetAddressInBlock c.1)
      c.2 ((data.drop (c.1 - a)).take c.2) true,
      Event.delay EEPROM_WRITE_DELAY :: ((P.take j).flatMap (okWrite (some h) data a) ++
        ((P.drop j).take 1).flatMap (badWrite (some h) data a)),
      by simp [okWrite, List.append_assoc], by simp [Event.onHandle]⟩

theorem starts_readLog (tr : List Event) (h a : Nat) (c : Nat × Nat)
    (P : List (Nat × Nat)) (m : Nat) :
    StartsOnHandle (some h) tr
      (tr ++ ((c :: P).take m).map (readEvent (some h) a true) ++
        (((c :: P).drop m).take 1).map (readEvent (some h) a false)) := by
  cases m with
  | zero =>
    exact ⟨readEvent (some h) a false c, [], by simp, by simp [readEvent, Event.onHandle]⟩
  | succ j =>
    exact ⟨readEvent (some h) a true c,
      (P.take j).map (readEvent (some h) a true) ++
        ((P.drop j).take 1).map (readEvent (some h) a false),
      by simp [List.append_assoc], by simp [readEvent, Event.onHandle]⟩

/-- With a stored handle `h`, every access with valid arguments starts with a transfer
made on `h`. -/
theorem calls_start_on_handle (T : Transport σ) (s : Driver σ) (h : Nat)
    (hh : s.hi2c_eeprom = some h) :
    (∀ a v, a < 2048 →
      StartsOnHandle (some h) s.trace (EEPROM_WriteByte T s a v).2.trace) ∧
    (∀ a d, a < 2048 →
      StartsOnHandle (some h) s.trace (EEPROM_ReadByte T s a (some d)).2.2.trace) ∧
    (∀ a n buf, 1 ≤ n → (a % 16) + n ≤ 16 → a + n ≤ 2048 →
      StartsOnHandle (some h) s.trace (EEPROM_WritePage T s a (some buf) n).2.trace) ∧
    (∀ fuel a n buf, 1 ≤ n → a + n ≤ 2048 → n ≤ fuel →
      ∃ r, EEPROM_WriteBuffer T fuel s a (some buf) n = some r ∧
        StartsOnHandle (some h) s.trace r.2.trace) ∧
    (∀ fuel a n buf, 1 ≤ n → a + n ≤ 2048 → n ≤ fuel →
      ∃ r, EEPROM_ReadBuffer T fuel s a (some buf) n = some r ∧
        StartsOnHandle (some h) s.trace r.2.2.trace) := by
  refine ⟨?_, ?_, ?_, ?_, ?_⟩
  · intro a v ha
    have c0 : ¬ (s.hi2c_eeprom = none ∨ a ≥ EEPROM_TOTAL_SIZE) := by
      rw [hh]; unfold EEPROM_TOTAL_SIZE; simp; omega
    unfold EEPROM_WriteByte
    simp only [c0, if_false, HAL_I2C_Mem_Write, HAL_Delay]
    cases (T.memWrite s.bus s.hi2c_eeprom (EEPROM_GetI2CAddress a)
        (u8 (EEPROM_GetAddressInBlock a)) 1 ([v].take 1)).1 with
    | false =>
      refine ⟨Event.memWrite (some h) (EEPROM_GetI2CAddress a)
        (u8 (EEPROM_GetAddressInBlock a)) 1 ([v].take 1) false, [], ?_, ?_⟩
      · simp [hh]
      · simp [Event.onHandle]
    | true =>
      refine ⟨Event.memWrite (some h) (EEPROM_GetI2CAddress a)
        (u8 (EEPROM_GetAddressInBlock a)) 1 ([v].take 1) true,
        [Event.delay EEPROM_WRITE_DELAY], ?_, ?_⟩
      · simp [hh]
      · simp [Event.onHandle]
  · intro a d ha
    have c0 : ¬ (s.hi2c_eeprom = none ∨ a ≥ EEPROM_TOTAL_SIZE) := by
      rw [hh]; unfold EEPROM_TOTAL_SIZE; simp; omega
    unfold EEPROM_ReadByte
    simp only [c0, if_false, HAL_I2C_Mem_Read]
    cases (T.memRead s.bus s.hi2c_eeprom (EEPROM_GetI2CAddress a)
        (u8 (EEPROM_GetAddressInBlock a)) 1).1 with
    | false =>
      refine ⟨Event.memRead (some h) (EEPROM_GetI2CAddress a)
        (u8 (EEPROM_GetAddressInBlock a)) 0 1 false, [], ?_, ?_⟩
      · simp [hh]
      · simp [Event.onHandle]
    | true =>
      refine ⟨Event.memRead (some h) (EEPROM_GetI2CAddress a)
        (u8 (EEPROM_GetAddressInBlock a)) 0 1 true, [], ?_, ?_⟩
      · simp [hh]
      · simp [Event.onHandle]
  · intro a n buf h1 hpage hs
    rw [WritePage_valid T s h a n buf hh h1 hpage hs]
    exact ⟨_, _, rfl, by simp [Event.onHandle]⟩
  · intro fuel a n buf h1 hs hf
    obtain ⟨r, m, hr, hm, _, htr, _, _⟩ :=
      WriteBuffer_loop_trace T (fun _ => True) h a n buf hs fuel 0 s hh (by omega) (by omega)
    refine ⟨r, ?_, ?_⟩
    · rw [WriteBuffer_eq_loop T fuel s h a n buf hh h1 hs]; exact hr
    · cases fuel with
      | zero => omega
      | succ k =>
        have hne : ¬ (n - 0 = 0) := by omega
        simp only [segments, hne, if_false] at htr
        rw [htr]
        exact starts_writeLog _ _ _ _ _ _ _
  · intro fuel a n buf h1 hs hf
    obtain ⟨r, m, hr, hm, _, htr, _⟩ :=
      ReadBuffer_loop_trace T h a n hs fuel 0 buf s hh (by omega) (by omega)
    refine ⟨(r.1, some r.2.1, r.2.2), ?_, ?_⟩
    · rw [ReadBuffer_eq_loop T fuel s h a n buf hh h1 hs, hr]; rfl
    · show StartsOnHandle (some h) s.trace r.2.2.trace
      cases fuel with
      | zero => omega
      | succ k =>
        have hne : ¬ (n - 0 = 0) := by omega
        simp only [segments, hne, if_false] at htr
        rw [htr]
        exact starts_readLog _ _ _ _ _ _

/-- C19: when the probe read of `EEPROM_Init` on a non-null handle `h` fails, the call
returns `EEPROM_ERROR` and the stored handle is `h` all the same, whatever was stored
before; every following access with valid arguments (`EEPROM_WriteByte`,
`EEPROM_ReadByte`, `EEPROM_WritePage`, `EEPROM_WriteBuffer`, `EEPROM_ReadBuffer`) then
starts with a transfer made on `h`.  `EEPROM_Init` with a null handle returns
`EEPROM_ERROR` and leaves the stored handle as it was. -/
theorem C19_Init_not_atomic (T : Transport σ) (s : Driver σ) (h : Nat)
    (hp : (T.memRead s.bus (some h) 0xA0 0 1).1 = false) :
    (EEPROM_Init T s (some h)).1 = EEPROM_ERROR ∧
    (EEPROM_Init T s (some h)).2.hi2c_eeprom = some h ∧
    (EEPROM_Init T s none).1 = EEPROM_ERROR ∧
    (EEPROM_Init T s none).2.hi2c_eeprom = s.hi2c_eeprom ∧
    (∀ a v, a < 2048 →
      StartsOnHandle (some h) (EEPROM_Init T s (some h)).2.trace
        (EEPROM_WriteByte T (EEPROM_Init T s (some h)).2 a v).2.trace) ∧
    (∀ a d, a < 2048 →
      StartsOnHandle (some h) (EEPROM_Init T s (some h)).2.trace
        (EEPROM_ReadByte T (EEPROM_Init T s (some h)).2 a (some d)).2.2.trace) ∧
    (∀ a n buf, 1 ≤ n → (a % 16) + n ≤ 16 → a + n ≤ 2048 →
      StartsOnHandle (some h) (EEPROM_Init T s (some h)).2.trace
        (EEPROM_WritePage T (EEPROM_Init T s (some h)).2 a (some buf) n).2.trace) ∧
    (∀ fuel a n buf, 1 ≤ n → a + n ≤ 2048 → n ≤ fuel →
      ∃ r, EEPROM_WriteBuffer T fuel (EEPROM_Init T s (some h)).2 a (some buf) n = some r ∧
        StartsOnHandle (some h) (EEPROM_Init T s (some h)).2.trace r.2.trace) ∧
    (∀ fuel a n buf, 1 ≤ n → a + n ≤ 2048 → n ≤ fuel →
      ∃ r, EEPROM_ReadBuffer T fuel (EEPROM_Init T s (some h)).2 a (some buf) n = some r ∧
        StartsOnHandle (some h) (EEPROM_Init T s (some h)).2.trace r.2.2.trace) := by
  have hst : (EEPROM_Init T s (some h)).1 = EEPROM_ERROR := by
    simp [EEPROM_Init, HAL_I2C_Mem_Read, EEPROM_I2C_ADDR, hp]
  have hhd : (EEPROM_Init T s (some h)).2.hi2c_eeprom = some h := by
    simp [EEPROM_Init, HAL_I2C_Mem_Read, EEPROM_I2C_ADDR, hp]
  obtain ⟨q1, q2, q3, q4, q5⟩ := calls_start_on_handle T (EEPROM_Init T s (some h)).2 h hhd
  exact ⟨hst, hhd, by simp [EEPROM_Init], by simp [EEPROM_Init], q1, q2, q3, q4, q5⟩

theorem C19_Init_not_atomic_witness :
    (byteStore.memRead (freshDriver (some 7) (faultyStore 0 0)).bus (some 1) 0xA0 0 1).1 =
      false ∧
    ((EEPROM_Init byteStore (freshDriver (some 7) (faultyStore 0 0)) (some 1)).1 =
      EEPROM_ERROR ∧
    (EEPROM_Init byteStore (freshDriver (some 7) (faultyStore 0 0)) (some 1)).2.hi2c_eeprom =
      some 1 ∧
    (EEPROM_Init byteStore (freshDriver (some 7) (faultyStore 0 0)) none).1 = EEPROM_ERROR ∧
    (EEPROM_Init byteStore (freshDriver (some 7) (faultyStore 0 0)) none).2.hi2c_eeprom =
      (freshDriver (some 7) (faultyStore 0 0)).hi2c_eeprom ∧
    (∀ a v, a < 2048 →
      StartsOnHandle (some 1)
        (EEPROM_Init byteStore (freshDriver (some 7) (faultyStore 0 0)) (some 1)).2.trace
        (EEPROM_WriteByte byteStore
          (EEPROM_Init byteStore (freshDriver (some 7) (faultyStore 0 0)) (some 1)).2
          a v).2.trace) ∧
    (∀ a d, a < 2048 →
      StartsOnHandle (some 1)
        (EEPROM_Init byteStore (freshDriver (some 7) (faultyStore 0 0)) (some 1)).2.trace
        (EEPROM_ReadByte byteStore
          (EEPROM_Init byteStore (freshDriver (some 7) (faultyStore 0 0)) (some 1)).2
          a (some d)).2.2.trace) ∧
    (∀ a n buf, 1 ≤ n → (a % 16) + n ≤ 16 → a + n ≤ 2048 →
      StartsOnHandle (some 1)
        (EEPROM_Init byteStore (freshDriver (some 7) (faultyStore 0 0)) (some 1)).2.trace
        (EEPROM_WritePage byteStore
          (EEPROM_Init byteStore (freshDriver (some 7) (faultyStore 0 0)) (some 1)).2
          a (some buf) n).2.trace) ∧
    (∀ fuel a n buf, 1 ≤ n → a + n ≤ 2048 → n ≤ fuel →
      ∃ r, EEPROM_WriteBuffer byteStore fuel
          (EEPROM_Init byteStore (freshDriver (some 7) (faultyStore 0 0)) (some 1)).2
          a (some buf) n = some r ∧
        StartsOnHandle (some 1)
          (EEPROM_Init byteStore (freshDriver (some 7) (faultyStore 0 0)) (some 1)).2.trace
          r.2.trace) ∧
    (∀ fuel a n buf, 1 ≤ n → a + n ≤ 2048 → n ≤ fuel →
      ∃ r, EEPROM_ReadBuffer byteStore fuel
          (EEPROM_Init byteStore (freshDriver (some 7) (faultyStore 0 0)) (some 1)).2
          a (some buf) n = some r ∧
        StartsOnHandle (some 1)
          (EEPROM_Init byteStore (freshDriver (some 7) (faultyStore 0 0)) (some 1)).2.trace
          r.2.2.trace)) :=
  ⟨by decide, C19_Init_not_atomic byteStore (freshDriver (some 7) (faultyStore 0 0)) 1
    (by decide)⟩

end EEPROM
